import Mathlib

/-!
Verification of the SQL query-guard layer of the panther MCP server.

The definitions below are a shallow embedding of
`src/mcp_panther/panther_mcp_core/utils/sql_validation.py` and of the pure
validation / rewriting helpers of
`src/mcp_panther/panther_mcp_core/tools/data_lake.py`.  SQL strings are
modelled as `List Char`; Python regular-expression searches are embedded as
structurally recursive scanners whose doc comments record the regex they
implement.  Character classes follow Python in the ASCII range (the guard
patterns are all ASCII).
-/

set_option maxRecDepth 8000

namespace Panther

/-- The apostrophe character (kept out of string literals). -/
def apos : Char := Char.ofNat 39

/-- The backtick character (kept out of string literals). -/
def btick : Char := Char.ofNat 96

/-- The double-quote character. -/
def dquote : Char := '"'

/-- ASCII whitespace: the characters matched by Python `str.strip()` and `\s`
in the ASCII range. -/
def isWs (c : Char) : Bool :=
  c = ' ' || c = '\t' || c = '\n' || c = '\r' || c = '\x0b' || c = '\x0c'

/-- Word character (regex `\w`, ASCII range): letters, digits, underscore. -/
def isWord (c : Char) : Bool := c.isAlphanum || c = '_'

/-- Python `str.lower`, ASCII range. -/
def lowerC (c : Char) : Char :=
  if 'A' ≤ c && c ≤ 'Z' then Char.ofNat (c.toNat + 32) else c

/-- Python `str.upper`, ASCII range. -/
def upperC (c : Char) : Char :=
  if 'a' ≤ c && c ≤ 'z' then Char.ofNat (c.toNat - 32) else c

def lowerL (l : List Char) : List Char := l.map lowerC

def upperL (l : List Char) : List Char := l.map upperC

/-- Exact prefix test. -/
def prefixEq : List Char → List Char → Bool
  | [], _ => true
  | _ :: _, [] => false
  | p :: ps, c :: cs => p = c && prefixEq ps cs

/-- Case-insensitive prefix test; the pattern is given in lowercase. -/
def prefixCI : List Char → List Char → Bool
  | [], _ => true
  | _ :: _, [] => false
  | p :: ps, c :: cs => p = lowerC c && prefixCI ps cs

/-- Substring occurrence (the Python `in` operator on strings). -/
def containsSubstr : List Char → List Char → Bool
  | [], p => p.isEmpty
  | c :: rest, p => prefixEq p (c :: rest) || containsSubstr rest p

/-- Left word boundary `\b`: start of string, or previous char not a word char. -/
def boundaryOk : Option Char → Bool
  | none => true
  | some c => !isWord c

/-- Right word boundary `\b`: end of string, or next char not a word char. -/
def rightBoundary : List Char → Bool
  | [] => true
  | c :: _ => !isWord c

/-- A case-insensitive standalone-token (`\b kw \b`) occurrence starting here;
`kw` is given in lowercase. -/
def tokenAt (kw : List Char) (prev : Option Char) (l : List Char) : Bool :=
  boundaryOk prev && prefixCI kw l && rightBoundary (l.drop kw.length)

def containsTokenAux (kw : List Char) (prev : Option Char) : List Char → Bool
  | [] => false
  | c :: rest => tokenAt kw prev (c :: rest) || containsTokenAux kw (some c) rest

/-- Case-insensitive search for `kw` as a standalone token anywhere in `l`. -/
def containsToken (l : List Char) (kw : List Char) : Bool := containsTokenAux kw none l

/-! ## Embedding of utils/sql_validation.py -/

/-- The uniform validator result: `{valid, error, processed_sql}`.  The
sub-validators never set `processed_sql`, modelled as `none`. -/
structure VResult where
  valid : Bool
  error : Option (List Char)
  processed_sql : Option (List Char)
  deriving Repr, DecidableEq

def msgEmpty : List Char := ("SQL query cannot be empty").data

def msgTooLong : List Char := ("Query too long. Maximum 10,000 characters allowed").data

def msgTimeFilter : List Char :=
  ("Query must include a time filter: either `p_event_time` condition or Panther macro").data

/-- Embedding of `validate_sql_basic`.  `sqlparse.parse` on a non-blank string
returns a non-empty statement tuple and raises nothing, so the two parser
branches of the source are dead and the model omits them.  `not sql or not
sql.strip()` is equivalent to every character being whitespace. -/
def validate_sql_basic (sql : List Char) : VResult :=
  if sql.all isWs then ⟨false, some msgEmpty, none⟩
  else if 10000 < sql.length then ⟨false, some msgTooLong, none⟩
  else ⟨true, none, none⟩

/-- After `p_event_time` the source regex requires `\s*(>=|<=|=|>|<|between)`;
since none of the alternatives starts with whitespace, a match exists iff the
first non-whitespace character starts one of them. -/
def opFollows (l : List Char) : Bool :=
  match l.dropWhile isWs with
  | [] => false
  | c :: cs => c = '>' || c = '<' || c = '=' || prefixCI (("between").data) (c :: cs)

/-- `p_event_time` occurs here, followed by `\s*` and a comparison operator. -/
def timeCmpAt (l : List Char) : Bool :=
  prefixCI (("p_event_time").data) l && opFollows (l.drop 12)

def hasTimeCmp : List Char → Bool
  | [] => false
  | c :: rest => timeCmpAt (c :: rest) || hasTimeCmp rest

/-- After a `where`/`and` token the regex requires `\s+` then a lazy gap then an
optional `[\w.]+\.` qualifier then the `p_event_time` comparison; the qualifier
and gap together are equivalent to: the next character is whitespace and a
`p_event_time` comparison starts somewhere after it. -/
def afterTok : List Char → Bool
  | [] => false
  | c :: rest => isWs c && hasTimeCmp rest

def whereTimeAux (prev : Option Char) : List Char → Bool
  | [] => false
  | c :: rest =>
    (boundaryOk prev &&
      ((prefixCI (("where").data) (c :: rest) && afterTok ((c :: rest).drop 5)) ||
       (prefixCI (("and").data) (c :: rest) && afterTok ((c :: rest).drop 3))))
    || whereTimeAux (some c) rest

/-- Embedding of the source search
`\b(where|and)\s+.*?(?:[\w.]+\.)?p_event_time\s*(>=|<=|=|>|<|between)`
(IGNORECASE, DOTALL). -/
def whereTimePattern (l : List Char) : Bool := whereTimeAux none l

def timeMacros : List (List Char) :=
  [("p_occurs_since").data, ("p_occurs_between").data, ("p_occurs_around").data,
   ("p_occurs_after").data, ("p_occurs_before").data]

/-- One of the five Panther time macros occurs (case-insensitively) anywhere. -/
def hasTimeMacro (l : List Char) : Bool :=
  timeMacros.any (fun m => containsSubstr (lowerL l) m)

/-- Embedding of `validate_sql_time_filter`. -/
def validate_sql_time_filter (sql : List Char) : VResult :=
  if sql.all isWs then ⟨false, some msgEmpty, none⟩
  else if hasTimeMacro sql || whereTimePattern (lowerL sql) then ⟨true, none, none⟩
  else ⟨false, some msgTimeFilter, none⟩

def pantherDatabases : List (List Char) :=
  [("panther_logs.public").data, ("panther_views.public").data,
   ("panther_signals.public").data, ("panther_rule_matches.public").data,
   ("panther_rule_errors.public").data, ("panther_monitor.public").data,
   ("panther_cloudsecurity.public").data]

def stripWs (l : List Char) : List Char :=
  ((l.dropWhile isWs).reverse.dropWhile isWs).reverse

def msgDbEmpty : List Char := ("Database name cannot be empty").data

def msgDbInvalid (db : List Char) : List Char :=
  ("Invalid database name ").data ++ [apos] ++ db ++ [apos] ++
  (". Must be a valid Panther database (e.g., ").data ++ [apos] ++
  ("panther_logs.public").data ++ [apos] ++ (")").data

/-- Embedding of `validate_panther_database_name`: the seven allow-list regexes
are anchored on both sides and contain no metacharacters beyond `\.`, so after
lowercasing and stripping they are exact string comparisons. -/
def validate_panther_database_name (db : List Char) : VResult :=
  if db.all isWs then ⟨false, some msgDbEmpty, none⟩
  else if pantherDatabases.any (fun p => stripWs (lowerL db) = p) then ⟨true, none, none⟩
  else ⟨false, some (msgDbInvalid db), none⟩

/-! ### wrap_reserved_words

The source iterates over `sqlparse.parse(sql)[0].flatten()` and rewrites only
tokens of ttype `Literal.String.Single`.  We embed the token stream
explicitly: `TType.stringSingle` is `Literal.String.Single`,
`TType.stringSymbol` is the ttype sqlparse assigns to a double-quoted chunk,
and `TType.other` stands for every remaining ttype, all of which the function
treats identically (pass-through). -/

inductive TType where
  | stringSingle
  | stringSymbol
  | other
  deriving Repr, DecidableEq

structure Tok where
  ttype : TType
  value : List Char
  deriving Repr, DecidableEq

/-- The reserved-word set of utils/sql_validation.py. -/
def SNOWFLAKE_RESERVED_WORDS : List (List Char) :=
  [("SELECT").data, ("FROM").data, ("WHERE").data, ("JOIN").data, ("LEFT").data,
   ("RIGHT").data, ("INNER").data, ("OUTER").data, ("ON").data, ("AS").data,
   ("ORDER").data, ("GROUP").data, ("BY").data, ("HAVING").data, ("UNION").data,
   ("ALL").data, ("DISTINCT").data, ("INSERT").data, ("UPDATE").data, ("DELETE").data,
   ("CREATE").data, ("ALTER").data, ("DROP").data, ("TABLE").data, ("VIEW").data,
   ("INDEX").data, ("COLUMN").data, ("PRIMARY").data, ("KEY").data, ("FOREIGN").data,
   ("UNIQUE").data, ("NOT").data, ("NULL").data, ("DEFAULT").data, ("CHECK").data,
   ("CONSTRAINT").data, ("REFERENCES").data, ("CASCADE").data, ("RESTRICT").data,
   ("SET").data, ("VALUES").data, ("INTO").data, ("CASE").data, ("WHEN").data,
   ("THEN").data, ("ELSE").data, ("END").data, ("IF").data, ("EXISTS").data,
   ("LIKE").data, ("BETWEEN").data, ("IN").data, ("IS").data, ("AND").data,
   ("OR").data, ("WITH").data]

/-- Python `value.strip("'")`: remove all leading and trailing apostrophes. -/
def stripApos (l : List Char) : List Char :=
  ((l.dropWhile (fun c => c = apos)).reverse.dropWhile (fun c => c = apos)).reverse

/-- The per-token body of the `wrap_reserved_words` loop: a single-quoted
string literal whose quote-stripped value upper-cases to a reserved word is
re-emitted as a double-quoted identifier; every other token is emitted
verbatim.  sqlparse lexes a double-quoted chunk as `String.Symbol`, which is
what the rewritten token carries, so composing this map with itself models
re-parsing the emitted text. -/
def wrapTok (t : Tok) : Tok :=
  if t.ttype = TType.stringSingle then
    let v := stripApos t.value
    if (upperL v) ∈ SNOWFLAKE_RESERVED_WORDS then ⟨TType.stringSymbol, dquote :: (v ++ [dquote])⟩
    else t
  else t

def wrapTokens (ts : List Tok) : List Tok := ts.map wrapTok

def renderToks (ts : List Tok) : List Char := (ts.map Tok.value).flatten

/-- Split at the next apostrophe: `some (before, after)` when one exists. -/
def splitAtApos : List Char → Option (List Char × List Char)
  | [] => none
  | c :: rest =>
    if c = apos then some ([], rest)
    else (splitAtApos rest).map (fun p => (c :: p.1, p.2))

theorem splitAtApos_len : ∀ l a b, splitAtApos l = some (a, b) → b.length < l.length := by
  intro l
  induction l with
  | nil => intro a b h; simp [splitAtApos] at h
  | cons c rest ih =>
    intro a b h
    rw [splitAtApos] at h
    by_cases hc : c = apos
    · rw [if_pos hc] at h
      simp only [Option.some_inj, Prod.mk.injEq] at h
      rw [← h.2]
      simp
    · rw [if_neg hc] at h
      cases hs : splitAtApos rest with
      | none => rw [hs] at h; exact Option.noConfusion h
      | some p =>
        rw [hs] at h
        simp only [Option.map_some', Option.some_inj, Prod.mk.injEq] at h
        have := ih p.1 p.2 (by rw [hs])
        rw [← h.2]
        simp only [List.length_cons]
        omega

/-- Minimal model of the sqlparse token stream, adequate for
`wrap_reserved_words`: single-quoted literals become `String.Single` tokens and
all remaining characters are grouped into `other` tokens (the real lexer splits
them further, but the function treats every non-`String.Single` token
identically, so the grouping is irrelevant to its output). -/
def lexSqlF : Nat → List Char → List Tok
  | 0, [] => []
  | 0, c :: rest => [⟨TType.other, c :: rest⟩]
  | _ + 1, [] => []
  | fuel + 1, c :: rest =>
    if c = apos then
      match splitAtApos rest with
      | some (lit, rest2) =>
        ⟨TType.stringSingle, apos :: (lit ++ [apos])⟩ :: lexSqlF fuel rest2
      | none => [⟨TType.other, c :: rest⟩]
    else
      match lexSqlF fuel rest with
      | ⟨TType.other, v⟩ :: ts => ⟨TType.other, c :: v⟩ :: ts
      | ts => ⟨TType.other, [c]⟩ :: ts

/-- Each scanning step consumes at least one character (`splitAtApos_len`), so
fuel equal to the input length never runs out. -/
def lexSql (l : List Char) : List Tok := lexSqlF l.length l

/-- Embedding of `wrap_reserved_words` (string level). -/
def wrap_reserved_words (sql : List Char) : List Char :=
  renderToks (wrapTokens (lexSql sql))

/-- Python truthiness of the optional `database_name` argument: present and
non-empty. -/
def dbTruthy : Option (List Char) → Bool
  | none => false
  | some d => !d.isEmpty

/-- Embedding of `validate_sql_comprehensive` exactly as it appears in
utils/sql_validation.py (no read-only gate; order: basic, time filter if
required, database name if truthy, then reserved-word processing). -/
def validate_sql_comprehensive (sql : List Char) (require_time_filter : Bool)
    (database_name : Option (List Char)) : VResult :=
  if (validate_sql_basic sql).valid = false then validate_sql_basic sql
  else if require_time_filter && ((validate_sql_time_filter sql).valid = false) then
    validate_sql_time_filter sql
  else if dbTruthy database_name &&
      ((validate_panther_database_name (database_name.getD [])).valid = false) then
    validate_panther_database_name (database_name.getD [])
  else ⟨true, none, some (wrap_reserved_words sql)⟩

/-- The negative lookahead `(?!\s*\()`: does `\s*\(` match here?  None of the
whitespace characters is `(`, so the backtracking `\s*` can only stop at the
first non-whitespace character. -/
def parenAfter (l : List Char) : Bool :=
  match l.dropWhile isWs with
  | c :: _ => c = '('
  | [] => false

namespace DataLake

/-! ## Embedding of tools/data_lake.py -/

/-- Reserved by ANSI (data_lake.py). -/
def ANSI_RESERVED_WORDS : List (List Char) :=
  [("ALL").data, ("ALTER").data, ("AND").data, ("ANY").data, ("AS").data,
   ("BETWEEN").data, ("BY").data, ("CHECK").data, ("COLUMN").data, ("CONNECT").data,
   ("CREATE").data, ("CURRENT").data, ("DELETE").data, ("DISTINCT").data, ("DROP").data,
   ("ELSE").data, ("EXISTS").data, ("FOR").data, ("FROM").data, ("GRANT").data,
   ("GROUP").data, ("HAVING").data, ("IN").data, ("INSERT").data, ("INTERSECT").data,
   ("INTO").data, ("IS").data, ("LIKE").data, ("NOT").data, ("NULL").data,
   ("OF").data, ("ON").data, ("OR").data, ("ORDER").data, ("REVOKE").data,
   ("ROW").data, ("ROWS").data, ("SAMPLE").data, ("SELECT").data, ("SET").data,
   ("START").data, ("TABLE").data, ("TABLESAMPLE").data, ("THEN").data, ("TO").data,
   ("TRIGGER").data, ("UNION").data, ("UNIQUE").data, ("UPDATE").data, ("VALUES").data,
   ("WHENEVER").data, ("WHERE").data, ("WINDOW").data, ("WITH").data]

/-- Reserved by Snowflake, non-ANSI (data_lake.py variable of the same name). -/
def SNOWFLAKE_RESERVED_WORDS : List (List Char) :=
  [("ILIKE").data, ("INCREMENT").data, ("MINUS").data, ("QUALIFY").data,
   ("REGEXP").data, ("RLIKE").data, ("SOME").data]

def ADDITIONAL_PROBLEMATIC_WORDS : List (List Char) :=
  [("ACCOUNT").data, ("CONNECTION").data, ("DATABASE").data, ("GSCLUSTER").data,
   ("ISSUE").data, ("ORGANIZATION").data, ("SCHEMA").data, ("VIEW").data]

/-- `SCALAR_EXPRESSION_FORBIDDEN`.  The source iterates over a Python set whose
order is unspecified; we iterate in sorted order (the order also used for the
error-message list).  Which member is named first in the message can depend on
the order, but every branch produces a message of the same shape. -/
def SCALAR_EXPRESSION_FORBIDDEN : List (List Char) :=
  [("CASE").data, ("CAST").data, ("FALSE").data, ("TRUE").data,
   ("TRY_CAST").data, ("WHEN").data]

def COLUMN_NAME_FORBIDDEN : List (List Char) :=
  [("CURRENT_USER").data, ("LOCALTIME").data, ("LOCALTIMESTAMP").data]

def QUOTABLE_RESERVED_WORDS : List (List Char) :=
  ANSI_RESERVED_WORDS ++ SNOWFLAKE_RESERVED_WORDS ++ ADDITIONAL_PROBLEMATIC_WORDS

/-- The keywords subtracted from the quotable set inside
`_validate_and_wrap_reserved_words`. -/
def excludedKeywords : List (List Char) :=
  [("ALL").data, ("AND").data, ("AS").data, ("BY").data, ("DISTINCT").data,
   ("ELSE").data, ("EXISTS").data, ("FOR").data, ("FROM").data, ("GROUP").data,
   ("HAVING").data, ("IN").data, ("IS").data, ("LIKE").data, ("NOT").data,
   ("NULL").data, ("OF").data, ("ON").data, ("OR").data, ("ORDER").data,
   ("SELECT").data, ("SET").data, ("THEN").data, ("TO").data, ("UNION").data,
   ("UPDATE").data, ("WHERE").data, ("WITH").data]

def column_context_words : List (List Char) :=
  QUOTABLE_RESERVED_WORDS.filter (fun w => !(excludedKeywords.contains w))

/-! ### The forbidden-word checks

`\bSELECT\b[^;]*\bW\b(?!\s*\()`, with, for CASE and WHEN, the extra negative
lookahead `(?![^,]*\b(?:WHEN|THEN|ELSE|END)\b)` (all searched with
IGNORECASE).  A match exists iff some standalone `SELECT` token is followed,
with no `;` in the gap, by a standalone occurrence of the word whose trailing
lookaheads succeed. -/

def cwTokens : List (List Char) :=
  [("when").data, ("then").data, ("else").data, ("end").data]

/-- Is there a standalone occurrence of one of `kws` before the next comma
(the `[^,]*\b(?:WHEN|THEN|ELSE|END)\b` lookahead body)? -/
def tokenBeforeComma (kws : List (List Char)) (prev : Option Char) : List Char → Bool
  | [] => false
  | c :: rest =>
    kws.any (fun k => tokenAt k prev (c :: rest)) ||
    (if c = ',' then false else tokenBeforeComma kws (some c) rest)

/-- The word `w` (given uppercase) matches here as a standalone token with the
required trailing negative lookaheads. -/
def forbiddenAt (w : List Char) (caseWhen : Bool) (prev : Option Char) (l : List Char) : Bool :=
  tokenAt (lowerL w) prev l &&
  !(parenAfter (l.drop w.length)) &&
  (!caseWhen ||
    !(tokenBeforeComma cwTokens (some ((l.take w.length).getLastD 'a')) (l.drop w.length)))

/-- Scan the `[^;]*` gap after a SELECT token for a forbidden occurrence of `w`. -/
def scanForbidden (w : List Char) (caseWhen : Bool) (prev : Option Char) : List Char → Bool
  | [] => false
  | c :: rest =>
    forbiddenAt w caseWhen prev (c :: rest) ||
    (if c = ';' then false else scanForbidden w caseWhen (some c) rest)

/-- Search for a standalone SELECT token followed (before any `;`) by a
forbidden occurrence of `w`. -/
def selectThenForbidden (w : List Char) (caseWhen : Bool) (prev : Option Char) :
    List Char → Bool
  | [] => false
  | c :: rest =>
    (tokenAt (("select").data) prev (c :: rest) &&
      scanForbidden w caseWhen (some (((c :: rest).take 6).getLastD 'a'))
        ((c :: rest).drop 6)) ||
    selectThenForbidden w caseWhen (some c) rest

def scalar_check (sql : List Char) : Option (List Char) :=
  SCALAR_EXPRESSION_FORBIDDEN.find? (fun w =>
    selectThenForbidden w (w = ("CASE").data || w = ("WHEN").data) none sql)

def column_check (sql : List Char) : Option (List Char) :=
  COLUMN_NAME_FORBIDDEN.find? (fun w => selectThenForbidden w false none sql)

def scalarPhrase : List Char :=
  ("cannot be used as column reference in scalar expressions").data

def scalarList : List Char := ("CASE, CAST, FALSE, TRUE, TRY_CAST, WHEN").data

def scalarMsg (w : List Char) : List Char :=
  ("Query contains forbidden keyword usage: ").data ++ [apos] ++ w ++ [apos] ++
  (" ").data ++ scalarPhrase ++ (". Forbidden scalar expression words: ").data ++ scalarList

def columnPhrase : List Char :=
  ("cannot be used as column name (reserved by ANSI)").data

def columnList : List Char := ("CURRENT_USER, LOCALTIME, LOCALTIMESTAMP").data

def columnMsg (w : List Char) : List Char :=
  ("Query contains forbidden keyword usage: ").data ++ [apos] ++ w ++ [apos] ++
  (" ").data ++ columnPhrase ++ (". Forbidden column names: ").data ++ columnList

/-! ### The reserved-word rewrite

The inner substitution is
`(?<![\"'` ` `])\b(word1|...|wordN)\b(?!\s*\()` (IGNORECASE).  Because the
pattern is bracketed by `\b` on both sides, a match always covers one maximal
run of word characters: an alternative that is a proper prefix of the run
fails the trailing `\b` and the engine backtracks, so the matched text is the
whole run regardless of alternation order (hence of the unspecified set
iteration order used to build the alternation).  We therefore embed the
substitution as a decision per maximal word run: quote the run iff its
upper-casing is in the word list, the preceding character is not a quote
character, and the following text does not match `\s*\(`. -/

inductive SToken where
  | word (w : List Char)
  | sym (c : Char)
  deriving Repr, DecidableEq

def tokenize : List Char → List SToken
  | [] => []
  | c :: rest =>
    if isWord c then
      match tokenize rest with
      | SToken.word w :: ts => SToken.word (c :: w) :: ts
      | ts => SToken.word [c] :: ts
    else SToken.sym c :: tokenize rest

def renderS : List SToken → List Char
  | [] => []
  | SToken.word w :: ts => w ++ renderS ts
  | SToken.sym c :: ts => c :: renderS ts

def isQuoteChar (c : Char) : Bool := c = dquote || c = apos || c = btick

/-- The `(?<![\"'` ` `])` lookbehind: blocked when the previous character is a
quote character (at the start of the scanned text it succeeds). -/
def prevBlocks : Option Char → Bool
  | none => false
  | some c => isQuoteChar c

def quotableWord (w : List Char) : Bool := column_context_words.contains (upperL w)

def shouldQuote (w : List Char) (prev : Option Char) (rest : List SToken) : Bool :=
  quotableWord w && !(prevBlocks prev) && !(parenAfter (renderS rest))

def processToks (prev : Option Char) : List SToken → List SToken
  | [] => []
  | SToken.word w :: rest =>
    if shouldQuote w prev rest then
      SToken.sym dquote :: SToken.word w :: SToken.sym dquote ::
        processToks (some dquote) rest
    else SToken.word w :: processToks (some (w.getLastD 'a')) rest
  | SToken.sym c :: rest => SToken.sym c :: processToks (some c) rest

/-- The re.sub of the reserved-word pattern over one SELECT-clause content. -/
def processContent (content : List Char) : List Char :=
  renderS (processToks none (tokenize content))

/-- `FROM\s` matches here (no word boundaries in the source lookaheads). -/
def fromWsAt (l : List Char) : Bool :=
  prefixCI (("from").data) l &&
  (match l.drop 4 with
   | c :: _ => isWs c
   | [] => false)

/-- The `(?=\s+FROM\s)` lookahead.  `\s+` can only stop at the end of the
maximal whitespace run (no whitespace character starts `FROM`), so the
lookahead succeeds iff the first character is whitespace and `FROM\s` matches
at the first non-whitespace position. -/
def lookWsFrom (l : List Char) : Bool :=
  (match l with
   | c :: _ => isWs c
   | [] => false) &&
  fromWsAt (l.dropWhile isWs)

/-- The lazy group-2 scan of the SELECT-clause pattern
`\b(SELECT\s+)((?:[^;](?!FROM\s))*?)(?=\s+FROM\s)`: starting just after the
first whitespace character that follows SELECT, stop at the first position
where the `\s+FROM\s` lookahead succeeds; consuming a character requires it to
be different from `;` and not immediately followed by `FROM\s`.  Splitting the
whitespace between the greedy `\s+` of group 1 and the lazy group 2 does not
change the replacement output or the match end, so the model fixes group 1 to
`SELECT` plus a single whitespace character. -/
def findSplit : List Char → Option (List Char × List Char)
  | [] => none
  | c :: rest =>
    if lookWsFrom (c :: rest) then some ([], c :: rest)
    else if c = ';' || fromWsAt rest then none
    else (findSplit rest).map (fun p => (c :: p.1, p.2))

theorem findSplit_len : ∀ l a b, findSplit l = some (a, b) → b.length ≤ l.length := by
  intro l
  induction l with
  | nil => intro a b h; exact Option.noConfusion h
  | cons c rest ih =>
    intro a b h
    rw [findSplit] at h
    by_cases h1 : lookWsFrom (c :: rest) = true
    · rw [if_pos h1] at h
      simp only [Option.some_inj, Prod.mk.injEq] at h
      rw [← h.2]
    · rw [if_neg h1] at h
      by_cases h2 : (c = ';' || fromWsAt rest) = true
      · rw [if_pos h2] at h; exact Option.noConfusion h
      · rw [if_neg h2] at h
        cases hs : findSplit rest with
        | none => rw [hs] at h; exact Option.noConfusion h
        | some p =>
          rw [hs] at h
          simp only [Option.map_some', Option.some_inj, Prod.mk.injEq] at h
          have := ih p.1 p.2 (by rw [hs])
          rw [← h.2]
          exact Nat.le_succ_of_le this

/-- Try to match the SELECT-clause pattern at the head of `l`: returns the six
SELECT characters as they appear, the matched span after them (leading
whitespace plus group-2 content), and the unconsumed rest. -/
def matchSelect (prev : Option Char) (l : List Char) :
    Option (List Char × List Char × List Char) :=
  if boundaryOk prev && prefixCI (("select").data) l then
    match l.drop 6 with
    | w :: tl =>
      if isWs w then
        match findSplit tl with
        | some (a, b) => some (l.take 6, w :: a, b)
        | none => none
      else none
    | [] => none
  else none

theorem matchSelect_len {prev : Option Char} {l sel d b : List Char}
    (h : matchSelect prev l = some (sel, d, b)) : b.length < l.length := by
  rw [matchSelect] at h
  split at h
  · split at h
    · rename_i w tl hd
      split at h
      · split at h
        · rename_i a b2 hs
          simp only [Option.some_inj, Prod.mk.injEq] at h
          have hb : b = b2 := h.2.2.symm
          have hb2 : b.length = b2.length := by rw [hb]
          have hlen := findSplit_len tl a b2 hs
          have hdl : (l.drop 6).length = l.length - 6 := List.length_drop 6 l
          rw [hd] at hdl
          simp only [List.length_cons] at hdl
          omega
        · exact Option.noConfusion h
      · exact Option.noConfusion h
    · exact Option.noConfusion h
  · exact Option.noConfusion h

/-- The outer re.sub scan of the SELECT-clause pattern: at each position try
the pattern; on a match, emit `SELECT` verbatim and the processed content and
resume after the match; otherwise emit the character and move on. -/
def rewriteSqlF : Nat → Option Char → List Char → List Char
  | 0, _, l => l
  | _ + 1, _, [] => []
  | fuel + 1, prev, c :: rest =>
    match matchSelect prev (c :: rest) with
    | some (sel, d, b) =>
      sel ++ processContent d ++ rewriteSqlF fuel (some (d.getLastD c)) b
    | none => c :: rewriteSqlF fuel (some c) rest

/-- Each scanning step consumes at least one character (`matchSelect_len`), so
fuel equal to the input length never runs out. -/
def rewriteSql (prev : Option Char) (l : List Char) : List Char :=
  rewriteSqlF l.length prev l

/-- Embedding of `_validate_and_wrap_reserved_words`. -/
def _validate_and_wrap_reserved_words (sql : List Char) : List Char × Option (List Char) :=
  match scalar_check sql with
  | some w => (sql, some (scalarMsg w))
  | none =>
    match column_check sql with
    | some w => (sql, some (columnMsg w))
    | none => (rewriteSql none sql, none)

/-! ### execute_data_lake_query up to the submission boundary -/

/-- Outcome of `execute_data_lake_query` up to the point where the query would
be handed to the remote GraphQL client: either an early `{success: False,
message}` return, or submission of the processed SQL. -/
inductive ExecOutcome where
  | rejected (msg : List Char)
  | submitted (sql : List Char) (db : List Char)
  deriving Repr, DecidableEq

def msgPEventTime : List Char :=
  ("Query must include p_event_time as a filter condition after WHERE or AND").data

def replaceNl (l : List Char) : List Char :=
  l.map (fun c => if c = '\n' then ' ' else c)

/-- Embedding of `execute_data_lake_query`: reserved-word validation first (its
error is returned verbatim), then the `p_event_time`-after-WHERE/AND regex on
the lowercased, newline-stripped rewritten SQL; only both-passing queries reach
the remote call. -/
def execute_data_lake_query (sql db : List Char) : ExecOutcome :=
  match _validate_and_wrap_reserved_words sql with
  | (_, some e) => ExecOutcome.rejected e
  | (sql2, none) =>
    if whereTimePattern (replaceNl (lowerL sql2)) then ExecOutcome.submitted sql2 db
    else ExecOutcome.rejected msgPEventTime

/-! ### Name normalization -/

def transliterate_pairs : List (Char × List Char) :=
  [('@', ("at_sign").data), (',', ("comma").data), (btick, ("backtick").data),
   (apos, ("apostrophe").data), ('$', ("dollar_sign").data), ('*', ("asterisk").data),
   ('&', ("ampersand").data), ('!', ("exclamation").data), ('%', ("percent").data),
   ('+', ("plus").data), ('/', ("slash").data), ('\\', ("backslash").data),
   ('#', ("hash").data), ('~', ("tilde").data), ('=', ("eq").data)]

/-- The `transliterate_chars` dict as a lookup. -/
def transliterate_chars (c : Char) : Option (List Char) :=
  (transliterate_pairs.find? (fun p => p.1 = c)).map Prod.snd

def number_to_word (c : Char) : List Char :=
  if c = '0' then ("zero").data
  else if c = '1' then ("one").data
  else if c = '2' then ("two").data
  else if c = '3' then ("three").data
  else if c = '4' then ("four").data
  else if c = '5' then ("five").data
  else if c = '6' then ("six").data
  else if c = '7' then ("seven").data
  else if c = '8' then ("eight").data
  else ("nine").data

def isHeadIdent (c : Char) : Bool := c.isAlpha || c = '_' || c = '-'

def isTailIdent (c : Char) : Bool := c.isAlphanum || c = '_' || c = '-'

/-- A full match of the pattern body `[a-zA-Z_-][a-zA-Z0-9_-]*`, i.e. a valid
unquoted SQL table identifier. -/
def matchesIdent (l : List Char) : Bool :=
  match l with
  | [] => false
  | c :: rest => isHeadIdent c && rest.all isTailIdent

/-- Embedding of `_is_name_normalized`, i.e. Python
`re.match` of `^[a-zA-Z_-][a-zA-Z0-9_-]*$`: outside MULTILINE mode the `$`
anchor matches at the end of the string **or just before a newline that ends
the string**, and since the character classes exclude the newline the pattern
holds exactly when the whole string — or the whole string minus one trailing
newline — is an identifier. -/
def _is_name_normalized (name : List Char) : Bool :=
  matchesIdent name ||
    (!name.isEmpty && name.getLastD ' ' = '\n' && matchesIdent name.dropLast)

/-- The output emitted by `_normalize_name` for one input character;
`t` models the `anyascii.anyascii` transliteration of the external library. -/
def emitChar (t : Char → List Char) (i last : Nat) (c : Char) : List Char :=
  if c.isAlpha then [c]
  else if c.isDigit then
    if i = 0 then number_to_word c ++ [('_' : Char)] else [c]
  else if c = '_' || c = '-' then [c]
  else
    match transliterate_chars c with
    | some wrd =>
      (if 0 < i then [('_' : Char)] else []) ++ wrd ++
      (if i < last then [('_' : Char)] else [])
    | none =>
      if 127 < c.toNat then
        let tr := t c
        if !tr.isEmpty && tr ≠ [apos] && tr ≠ [' '] then tr else [('_' : Char)]
      else [('_' : Char)]

def normalizeGo (t : Char → List Char) (i last : Nat) : List Char → List Char
  | [] => []
  | c :: rest => emitChar t i last c ++ normalizeGo t (i + 1) last rest

/-- `_normalize_name`, parameterized by the transliteration table `t`. -/
def _normalize_name_core (t : Char → List Char) (name : List Char) : List Char :=
  if _is_name_normalized name then name
  else normalizeGo t 0 (name.length - 1) name

/-- Model of the `anyascii` transliteration on the characters exercised by the
repository's tests (Greek letters fold to Latin, U+02BC MODIFIER LETTER
APOSTROPHE maps to the ASCII apostrophe); every other non-ASCII character is
mapped to the empty string (treated as having no transliteration). -/
def anyasciiModel (c : Char) : List Char :=
  if c = Char.ofNat 0x39C then ("M").data
  else if c = Char.ofNat 0x3CD then ("y").data
  else if c = Char.ofNat 0x3BA then ("k").data
  else if c = Char.ofNat 0x3BF then ("o").data
  else if c = Char.ofNat 0x3BD then ("n").data
  else if c = Char.ofNat 0x3C2 then ("s").data
  else if c = Char.ofNat 0x2BC then [apos]
  else []

def _normalize_name (name : List Char) : List Char :=
  _normalize_name_core anyasciiModel name

end DataLake

/-! ## Spec-modelled read-only validation -/

/-- The DDL/DML keywords of the read-only gate. -/
def ddlKeywords : List (List Char) :=
  [("DROP").data, ("DELETE").data, ("INSERT").data, ("UPDATE").data,
   ("CREATE").data, ("ALTER").data, ("TRUNCATE").data, ("REPLACE").data,
   ("MERGE").data, ("UPSERT").data, ("GRANT").data, ("REVOKE").data,
   ("COMMIT").data, ("ROLLBACK").data, ("SAVEPOINT").data]

/-- Modelled from the spec: `validate_sql_read_only` is referenced by the
repository's tests and by `saved_queries.py` but is absent from the
`sql_validation.py` under src/.  Per §4.4 it rejects the presence of any
DDL/DML keyword as a standalone token, case-insensitively, and its error names
the keyword found. -/
def validate_sql_read_only (sql : List Char) : VResult :=
  match ddlKeywords.find? (fun kw => containsToken sql (lowerL kw)) with
  | some kw =>
    ⟨false, some ((("Query contains forbidden keyword: ").data ++ kw ++
      (". Only read-only queries are allowed").data)), none⟩
  | none => ⟨true, none, none⟩

/-- Modelled from the spec: the §4.6 facade signature
`validate_sql_comprehensive(sql, require_time_filter, read_only,
database_name)`; the read-only gate runs after the time filter and before the
database-name check, and the reserved-word rewrite only runs when every
enabled gate passed. -/
def validate_sql_comprehensive_ro (sql : List Char) (require_time_filter read_only : Bool)
    (database_name : Option (List Char)) : VResult :=
  if (validate_sql_basic sql).valid = false then validate_sql_basic sql
  else if require_time_filter && ((validate_sql_time_filter sql).valid = false) then
    validate_sql_time_filter sql
  else if read_only && ((validate_sql_read_only sql).valid = false) then
    validate_sql_read_only sql
  else if dbTruthy database_name &&
      ((validate_panther_database_name (database_name.getD [])).valid = false) then
    validate_panther_database_name (database_name.getD [])
  else ⟨true, none, some (wrap_reserved_words sql)⟩

/-! ## Lemmas about whitespace-only strings -/

theorem lowerC_ws {c : Char} (h : isWs c = true) : lowerC c = c := by
  simp only [isWs, Bool.or_eq_true, decide_eq_true_eq] at h
  rcases h with ((((h | h) | h) | h) | h) | h <;> subst h <;> decide

theorem all_ws_lower {sql : List Char} (h : sql.all isWs = true) :
    (lowerL sql).all isWs = true := by
  rw [lowerL, List.all_map]
  refine List.all_eq_true.mpr ?_
  intro c hc
  have := List.all_eq_true.mp h c hc
  simp only [Function.comp_apply, lowerC_ws this]
  exact this

theorem prefixEq_mem : ∀ (p l : List Char), prefixEq p l = true → ∀ c ∈ p, c ∈ l := by
  intro p
  induction p with
  | nil => intro l _ c hc; cases hc
  | cons a ps ih =>
    intro l h c hc
    cases l with
    | nil => exact absurd h (by simp [prefixEq])
    | cons b bs =>
      rw [prefixEq, Bool.and_eq_true, decide_eq_true_eq] at h
      rcases List.mem_cons.mp hc with h1 | h1
      · subst h1; exact h.1 ▸ List.mem_cons_self _ _
      · exact List.mem_cons_of_mem _ (ih bs h.2 c h1)

theorem containsSubstr_mem : ∀ (l p : List Char), containsSubstr l p = true → ∀ c ∈ p, c ∈ l := by
  intro l
  induction l with
  | nil =>
    intro p h c hc
    rw [containsSubstr] at h
    rw [List.isEmpty_iff.mp h] at hc
    cases hc
  | cons d rest ih =>
    intro p h c hc
    rw [containsSubstr, Bool.or_eq_true] at h
    rcases h with h | h
    · exact prefixEq_mem p (d :: rest) h c hc
    · exact List.mem_cons_of_mem _ (ih p h c hc)

theorem prefixCI_head {p c : Char} {ps cs : List Char}
    (h : prefixCI (p :: ps) (c :: cs) = true) : lowerC c = p := by
  rw [prefixCI, Bool.and_eq_true, decide_eq_true_eq] at h
  exact h.1.symm

theorem whereTimeAux_ws : ∀ (l : List Char) (prev : Option Char),
    l.all isWs = true → whereTimeAux prev l = false := by
  intro l
  induction l with
  | nil => intro prev _; rfl
  | cons c rest ih =>
    intro prev h
    have hc : isWs c = true := (List.all_eq_true.mp h c (List.mem_cons_self c rest))
    have hrest : rest.all isWs = true := by
      refine List.all_eq_true.mpr ?_
      intro x hx
      exact List.all_eq_true.mp h x (List.mem_cons_of_mem c hx)
    rw [whereTimeAux, ih (some c) hrest, Bool.or_false]
    have hw : prefixCI (("where").data) (c :: rest) = false := by
      cases hpw : prefixCI (("where").data) (c :: rest) with
      | false => rfl
      | true =>
        have := prefixCI_head hpw
        rw [lowerC_ws hc] at this
        subst this
        exact absurd hc (by decide)
    have ha : prefixCI (("and").data) (c :: rest) = false := by
      cases hpa : prefixCI (("and").data) (c :: rest) with
      | false => rfl
      | true =>
        have := prefixCI_head hpa
        rw [lowerC_ws hc] at this
        subst this
        exact absurd hc (by decide)
    simp [hw, ha]

theorem hasTimeMacro_ws {sql : List Char} (h : sql.all isWs = true) :
    hasTimeMacro sql = false := by
  cases hm : hasTimeMacro sql with
  | false => rfl
  | true =>
    exfalso
    rw [hasTimeMacro, List.any_eq_true] at hm
    obtain ⟨m, hmem, hcs⟩ := hm
    have hnotws : (!(m.all isWs)) = true := by
      have hall : timeMacros.all (fun x => !(x.all isWs)) = true := by decide
      exact List.all_eq_true.mp hall m hmem
    have hex : ∃ c ∈ m, isWs c = false := by
      by_contra hcon
      push_neg at hcon
      have hmw : m.all isWs = true := List.all_eq_true.mpr (fun c hc => by
        cases hcw : isWs c with
        | true => rfl
        | false => exact absurd hcw (hcon c hc))
      rw [hmw] at hnotws
      exact absurd hnotws (by decide)
    obtain ⟨c, hcm, hcw⟩ := hex
    have hin : c ∈ lowerL sql := containsSubstr_mem (lowerL sql) m hcs c hcm
    have := List.all_eq_true.mp (all_ws_lower h) c hin
    rw [this] at hcw
    cases hcw

/-! ## Concrete example queries -/

def c2_bad : List Char :=
  ("SELECT * FROM t WHERE status=").data ++ [apos] ++ ("active").data ++ [apos]

def c2_good : List Char :=
  ("SELECT * FROM t WHERE p_occurs_since(").data ++ [apos] ++ ("1 d").data ++ [apos] ++ (")").data

def c4_subquery : List Char :=
  ("SELECT * FROM (SELECT * FROM t WHERE p_event_time >= ").data ++ [apos] ++
  ("2024-01-01").data ++ [apos] ++ (")").data

def c4_projection : List Char := ("SELECT p_event_time FROM t").data

def c4_rhs : List Char := ("SELECT * FROM t WHERE x = p_event_time").data

/-! ## Claim C2 -/

/-- C2: `validate_sql_time_filter` returns `valid = true` exactly when the query
contains one of the five Panther time macros as a case-insensitive substring
anywhere, or matches the WHERE/AND `p_event_time` comparison pattern; the query
`SELECT * FROM t WHERE status='active'` is rejected with an error mentioning a
time filter, and `SELECT * FROM t WHERE p_occurs_since('1 d')` is accepted. -/
theorem C2_time_filter_characterization :
    (∀ sql : List Char, (validate_sql_time_filter sql).valid = true ↔
      (hasTimeMacro sql = true ∨ whereTimePattern (lowerL sql) = true)) ∧
    ((validate_sql_time_filter c2_bad).valid = false ∧
      ∃ msg, (validate_sql_time_filter c2_bad).error = some msg ∧
        containsSubstr msg (("time filter").data) = true) ∧
    (validate_sql_time_filter c2_good).valid = true := by
  refine ⟨?_, ⟨by decide, ⟨msgTimeFilter, by decide, by decide⟩⟩, by decide⟩
  intro sql
  unfold validate_sql_time_filter
  by_cases hw : sql.all isWs = true
  · have h1 : hasTimeMacro sql = false := hasTimeMacro_ws hw
    have h2 : whereTimePattern (lowerL sql) = false := whereTimeAux_ws _ none (all_ws_lower hw)
    simp [hw, h1, h2]
  · cases hb : (hasTimeMacro sql || whereTimePattern (lowerL sql)) with
    | false =>
      rw [Bool.or_eq_false_iff] at hb
      simp [hw, hb.1, hb.2]
    | true =>
      rw [Bool.or_eq_true] at hb
      simp only [hw, if_false, Bool.false_eq_true]
      rcases hb with hb | hb <;> simp [hb]

/-! ## Claim C3 -/

/-- The ValidationResult invariant of the spec. -/
def vinv (r : VResult) : Prop :=
  (r.valid = false → r.error ≠ none ∧ r.processed_sql = none) ∧
  (r.valid = true → r.error = none)

theorem vinv_basic (sql : List Char) : vinv (validate_sql_basic sql) := by
  unfold vinv validate_sql_basic
  split <;> simp_all
  split <;> simp_all

theorem vinv_time (sql : List Char) : vinv (validate_sql_time_filter sql) := by
  unfold vinv validate_sql_time_filter
  split <;> simp_all
  split <;> simp_all

theorem vinv_db (db : List Char) : vinv (validate_panther_database_name db) := by
  unfold vinv validate_panther_database_name
  split <;> simp_all
  split <;> simp_all

theorem vinv_comprehensive (sql : List Char) (rt : Bool) (dbn : Option (List Char)) :
    vinv (validate_sql_comprehensive sql rt dbn) := by
  unfold validate_sql_comprehensive
  split
  · exact vinv_basic sql
  · split
    · exact vinv_time sql
    · split
      · exact vinv_db _
      · exact ⟨fun h => absurd h (by simp), fun _ => rfl⟩

/-- C3: every validator (`validate_sql_basic`, `validate_sql_time_filter`,
`validate_panther_database_name`) and the facade `validate_sql_comprehensive`
satisfy the ValidationResult invariant: `valid = false` implies a non-null
error and a null `processed_sql`, and `valid = true` implies a null error; in
particular no call in which an enabled gate failed returns a processed SQL
string. -/
theorem C3_result_invariant :
    ∀ (sql db : List Char) (rt : Bool) (dbn : Option (List Char)),
      vinv (validate_sql_basic sql) ∧ vinv (validate_sql_time_filter sql) ∧
      vinv (validate_panther_database_name db) ∧ vinv (validate_sql_comprehensive sql rt dbn) :=
  fun sql db rt dbn =>
    ⟨vinv_basic sql, vinv_time sql, vinv_db db, vinv_comprehensive sql rt dbn⟩

/-- Witness for C3 at concrete inputs: the empty query fails basic validation
with a non-null error and null processed SQL, and a fully valid call returns a
null error. -/
theorem C3_result_invariant_witness :
    ((validate_sql_basic []).error ≠ none ∧ (validate_sql_basic []).processed_sql = none) ∧
    (validate_sql_comprehensive c2_good true (some (("panther_logs.public").data))).error = none := by
  refine ⟨(C3_result_invariant [] [] true none).1.1 (by decide), ?_⟩
  exact ((C3_result_invariant c2_good [] true
    (some (("panther_logs.public").data))).2.2.2).2 (by decide)

/-! ## Claim C4 -/

/-- C4 counterexample: the claim says a query whose only `p_event_time`
comparison occurs inside a subquery (with no outer filter and no macro) is
rejected, but the lexical check accepts
`SELECT * FROM (SELECT * FROM t WHERE p_event_time >= '2024-01-01')`. -/
theorem C4_subquery_counterexample :
    (validate_sql_time_filter c4_subquery).valid = true := by decide

/-- C4 amended: a query whose `p_event_time` appears only in the SELECT
projection, or only as a bare right-hand-side value with no operator after it,
is rejected; but the check is purely lexical and not scope-aware, so a
`p_event_time` comparison inside a subquery does satisfy it. -/
theorem C4_amended_projection_and_rhs_rejected :
    (validate_sql_time_filter c4_projection).valid = false ∧
    (validate_sql_time_filter c4_rhs).valid = false ∧
    (validate_sql_time_filter c4_subquery).valid = true := by decide

/-! ## Claim C6 -/

def c6_input : List Char :=
  ("SELECT account, normal_col FROM t WHERE p_event_time >= ").data ++ [apos] ++
  ("2024-01-01").data ++ [apos]

def c6_expected : List Char :=
  ("SELECT \"account\", normal_col FROM t WHERE p_event_time >= ").data ++ [apos] ++
  ("2024-01-01").data ++ [apos]

def c6_fncall : List Char :=
  ("SELECT current(x), account FROM t WHERE p_event_time >= ").data ++ [apos] ++
  ("2024-01-01").data ++ [apos]

def c6_fncall_expected : List Char :=
  ("SELECT current(x), \"account\" FROM t WHERE p_event_time >= ").data ++ [apos] ++
  ("2024-01-01").data ++ [apos]

/-- C6: on `SELECT account, normal_col FROM t WHERE p_event_time >= '2024-01-01'`
the rewrite quotes the bare reserved word `account` (case preserved), leaves
`normal_col` untouched and reports no error; and a quotable reserved word
immediately followed by `(` (here `current(x)`) is not quoted while a bare one
in the same projection still is. -/
theorem C6_wrap_concrete :
    DataLake._validate_and_wrap_reserved_words c6_input = (c6_expected, none) ∧
    DataLake._validate_and_wrap_reserved_words c6_fncall = (c6_fncall_expected, none) := by
  exact ⟨by decide, by decide⟩

/-! ## Claim C5 -/

def c5_input : List Char :=
  ("SELECT ").data ++ [apos] ++ ("ORDER").data ++ [apos] ++ (" FROM users").data

/-- C5 counterexample: `wrap_reserved_words` does **not** leave string literals
unchanged — on the repository's own test input `SELECT 'ORDER' FROM users` it
rewrites the single-quoted literal `'ORDER'` to the double-quoted `"ORDER"`
(and it never touches bare identifiers in the projection). -/
theorem C5_wrap_changes_string_literal :
    wrap_reserved_words c5_input ≠ c5_input ∧
    wrap_reserved_words c5_input = ("SELECT \"ORDER\" FROM users").data := by
  exact ⟨by decide, by decide⟩

/-- C5 amended: `wrap_reserved_words` changes only single-quoted string-literal
tokens: a token stream with no `String.Single` token is passed through
verbatim, and a single-quoted literal whose quote-stripped value is a reserved
word becomes a double-quoted identifier. -/
theorem C5_amended_frame :
    (∀ ts : List Tok, (∀ t ∈ ts, t.ttype ≠ TType.stringSingle) → wrapTokens ts = ts) ∧
    wrapTok ⟨TType.stringSingle, [apos] ++ ("ORDER").data ++ [apos]⟩ =
      ⟨TType.stringSymbol, dquote :: (("ORDER").data ++ [dquote])⟩ := by
  constructor
  · intro ts h
    induction ts with
    | nil => rfl
    | cons t rest ih =>
      have ht : t.ttype ≠ TType.stringSingle := h t (List.mem_cons_self t rest)
      have h1 : wrapTok t = t := by
        unfold wrapTok
        rw [if_neg ht]
      show wrapTok t :: wrapTokens rest = t :: rest
      rw [h1, ih (fun x hx => h x (List.mem_cons_of_mem t hx))]
  · decide

/-- Witness for the C5 amended frame property at a concrete token stream. -/
theorem C5_amended_frame_witness :
    wrapTokens [⟨TType.other, ("SELECT a FROM t").data⟩] =
      [⟨TType.other, ("SELECT a FROM t").data⟩] :=
  C5_amended_frame.1 [⟨TType.other, ("SELECT a FROM t").data⟩] (by decide)

/-! ## Claim C7 -/

def c7_false_q : List Char :=
  ("SELECT false FROM t WHERE p_event_time >= ").data ++ [apos] ++
  ("2024-01-01").data ++ [apos]

/-- C7: whenever the scalar-expression forbidden-word scan fires, the function
returns a non-null message containing the phrase
`cannot be used as column reference in scalar expressions` and the full sorted
list of forbidden scalar-expression words; in particular
`SELECT false FROM t WHERE p_event_time >= '2024-01-01'` produces exactly the
FALSE message. -/
theorem C7_scalar_forbidden_error_message :
    (∀ (sql w : List Char), DataLake.scalar_check sql = some w →
      ∃ msg, (DataLake._validate_and_wrap_reserved_words sql).2 = some msg ∧
        DataLake.scalarPhrase <:+: msg ∧ DataLake.scalarList <:+: msg) ∧
    (DataLake._validate_and_wrap_reserved_words c7_false_q).2 =
      some (DataLake.scalarMsg (("FALSE").data)) := by
  constructor
  · intro sql w hw
    refine ⟨DataLake.scalarMsg w, ?_, ?_, ?_⟩
    · unfold DataLake._validate_and_wrap_reserved_words
      rw [hw]
    · refine ⟨("Query contains forbidden keyword usage: ").data ++ [apos] ++ w ++ [apos] ++
        (" ").data, (". Forbidden scalar expression words: ").data ++ DataLake.scalarList, ?_⟩
      simp [DataLake.scalarMsg, List.append_assoc]
    · refine ⟨("Query contains forbidden keyword usage: ").data ++ [apos] ++ w ++ [apos] ++
        (" ").data ++ DataLake.scalarPhrase ++ (". Forbidden scalar expression words: ").data,
        [], ?_⟩
      simp [DataLake.scalarMsg, List.append_assoc]
  · decide

/-- Witness for C7 at the concrete FALSE query. -/
theorem C7_scalar_forbidden_error_message_witness :
    ∃ msg, (DataLake._validate_and_wrap_reserved_words c7_false_q).2 = some msg ∧
      DataLake.scalarPhrase <:+: msg ∧ DataLake.scalarList <:+: msg :=
  C7_scalar_forbidden_error_message.1 c7_false_q (("FALSE").data) (by decide)

/-! ## Claim C10 -/

def c10_false_q : List Char := ("SELECT false FROM t").data

def c10_macro_q : List Char :=
  ("SELECT * FROM t WHERE p_occurs_since(").data ++ [apos] ++ ("1 d").data ++
  [apos] ++ (")").data

/-- C10 counterexample: `SELECT false FROM t` has no `p_event_time` comparison
after WHERE/AND, yet `execute_data_lake_query` rejects it with the
reserved-word validation message, not the claimed p_event_time message (the
reserved-word check runs first). -/
theorem C10_reserved_error_preempts :
    DataLake.execute_data_lake_query c10_false_q (("panther_logs.public").data) =
      DataLake.ExecOutcome.rejected (DataLake.scalarMsg (("FALSE").data)) ∧
    DataLake.scalarMsg (("FALSE").data) ≠ DataLake.msgPEventTime := by
  exact ⟨by decide, by decide⟩

/-- C10 amended: provided the reserved-word validation reports no error, a
query (rewritten) in which no `p_event_time` comparison follows a WHERE or AND
token is rejected with exactly the message `Query must include p_event_time as
a filter condition after WHERE or AND` and is not submitted — even when it
contains a Panther time macro. -/
theorem C10_amended_time_gate :
    ∀ sql db : List Char,
      (DataLake._validate_and_wrap_reserved_words sql).2 = none →
      whereTimePattern (DataLake.replaceNl
        (lowerL (DataLake._validate_and_wrap_reserved_words sql).1)) = false →
      DataLake.execute_data_lake_query sql db =
        DataLake.ExecOutcome.rejected DataLake.msgPEventTime := by
  intro sql db h1 h2
  cases hp : DataLake._validate_and_wrap_reserved_words sql with
  | mk s2 e =>
    cases e with
    | some x =>
      rw [hp] at h1
      exact absurd h1 (by simp)
    | none =>
      rw [hp] at h2
      have h2c : whereTimePattern (DataLake.replaceNl (lowerL s2)) = false := h2
      have hstep : DataLake.execute_data_lake_query sql db =
          (if whereTimePattern (DataLake.replaceNl (lowerL s2)) = true
           then DataLake.ExecOutcome.submitted s2 db
           else DataLake.ExecOutcome.rejected DataLake.msgPEventTime) := by
        unfold DataLake.execute_data_lake_query
        rw [hp]
      rw [hstep]
      simp [h2c]

/-- Witness for C10 amended: a macro-only query (no `p_event_time` comparison)
is rejected with the p_event_time message. -/
theorem C10_amended_time_gate_witness :
    DataLake.execute_data_lake_query c10_macro_q (("panther_logs.public").data) =
      DataLake.ExecOutcome.rejected DataLake.msgPEventTime :=
  C10_amended_time_gate c10_macro_q (("panther_logs.public").data) (by decide) (by decide)

/-! ## Claim C1 -/

def c1_updates_q : List Char := ("SELECT updates_column, delete_flag FROM users").data

def c1_drop_q : List Char := ("SELECT * FROM users; DROP TABLE users").data

/-- C1: with `read_only = True`, any query containing a DDL/DML keyword as a
standalone token (case-insensitively) is rejected by the comprehensive facade
(whatever the other flags), while a query in which the keywords appear only
inside longer identifiers passes the read-only gate — in particular
`SELECT updates_column, delete_flag FROM users`. -/
theorem C1_read_only_gate :
    (∀ (sql : List Char) (rt : Bool) (dbn : Option (List Char)) (kw : List Char),
      kw ∈ ddlKeywords → containsToken sql (lowerL kw) = true →
      (validate_sql_comprehensive_ro sql rt true dbn).valid = false) ∧
    (∀ sql : List Char, (∀ kw ∈ ddlKeywords, containsToken sql (lowerL kw) = false) →
      (validate_sql_read_only sql).valid = true) ∧
    (validate_sql_read_only c1_updates_q).valid = true := by
  refine ⟨?_, ?_, by decide⟩
  · intro sql rt dbn kw hkw hct
    have hro : (validate_sql_read_only sql).valid = false := by
      unfold validate_sql_read_only
      cases hf : ddlKeywords.find? (fun k => containsToken sql (lowerL k)) with
      | some k => rfl
      | none =>
        rw [List.find?_eq_none] at hf
        exact absurd hct (by simpa using hf kw hkw)
    unfold validate_sql_comprehensive_ro
    split
    · rename_i h
      exact h
    · split
      · rename_i h2
        rw [Bool.and_eq_true] at h2
        exact of_decide_eq_true h2.2
      · split
        · exact hro
        · rename_i h2 h3
          exfalso
          apply h3
          rw [Bool.and_eq_true]
          exact ⟨rfl, decide_eq_true hro⟩
  · intro sql hall
    unfold validate_sql_read_only
    rw [List.find?_eq_none.mpr (fun x hx => by rw [hall x hx]; exact Bool.false_ne_true)]

/-- Witness for C1 at a concrete DROP statement. -/
theorem C1_read_only_gate_witness :
    (validate_sql_comprehensive_ro c1_drop_q true true none).valid = false :=
  C1_read_only_gate.1 c1_drop_q true none (("DROP").data) (by decide) (by decide)

/-! ## Claim C8 -/

namespace DataLake

/-- A word token is non-empty and made of word characters. -/
def wordOk (w : List Char) : Bool := !w.isEmpty && w.all isWord

def headNotWordTok : List SToken → Bool
  | SToken.word _ :: _ => false
  | _ => true

/-- Well-formed token streams: what `tokenize` produces — non-empty all-word
word tokens, non-word symbol tokens, and no two adjacent word tokens. -/
def wfToks : List SToken → Bool
  | [] => true
  | SToken.sym c :: rest => !isWord c && wfToks rest
  | SToken.word w :: rest => wordOk w && headNotWordTok rest && wfToks rest

theorem bool_eq_false {b : Bool} (h : ¬ b = true) : b = false := by
  cases b
  · rfl
  · exact absurd rfl h

theorem bool_not_true {b : Bool} (h : (!b) = true) : b = false := by
  cases b
  · rfl
  · exact absurd h (by decide)

theorem word_not_ws {c : Char} (h : isWord c = true) : isWs c = false := by
  cases hw : isWs c with
  | false => rfl
  | true =>
    exfalso
    rw [isWs] at hw
    simp only [Bool.or_eq_true, decide_eq_true_eq] at hw
    rcases hw with ((((hw | hw) | hw) | hw) | hw) | hw <;> subst hw <;>
      exact absurd h (by decide)

theorem word_ne_paren {c : Char} (h : isWord c = true) : ¬ (c = '(') := by
  intro hc
  subst hc
  exact absurd h (by decide)

theorem parenAfter_cons (c : Char) (l : List Char) :
    parenAfter (c :: l) = if isWs c then parenAfter l else decide (c = '(') := by
  unfold parenAfter
  rw [List.dropWhile_cons]
  by_cases h : isWs c = true
  · rw [if_pos h, if_pos h]
  · rw [if_neg h, if_neg h]

theorem parenAfter_word {w : List Char} (hw : wordOk w = true) (X : List Char) :
    parenAfter (w ++ X) = false := by
  cases w with
  | nil => exact absurd hw (by decide)
  | cons a as =>
    have ha : isWord a = true := by
      rw [wordOk, Bool.and_eq_true] at hw
      exact List.all_eq_true.mp hw.2 a (List.mem_cons_self a as)
    have hws : ¬ (isWs a = true) := by
      rw [word_not_ws ha]
      exact Bool.false_ne_true
    rw [List.cons_append, parenAfter_cons, if_neg hws]
    exact decide_eq_false (word_ne_paren ha)

/-- Quote insertions never change the `\s*\(` lookahead of the following text. -/
theorem parenAfter_processToks : ∀ (ts : List SToken) (q : Option Char), wfToks ts = true →
    parenAfter (renderS (processToks q ts)) = parenAfter (renderS ts) := by
  intro ts
  induction ts with
  | nil => intro q _; rfl
  | cons tk rest ih =>
    intro q hwf
    cases tk with
    | sym c =>
      simp only [wfToks, Bool.and_eq_true] at hwf
      simp only [processToks, renderS]
      rw [parenAfter_cons, parenAfter_cons]
      split
      · exact ih (some c) hwf.2
      · rfl
    | word w =>
      simp only [wfToks, Bool.and_eq_true] at hwf
      obtain ⟨⟨hok, _⟩, _⟩ := hwf
      simp only [processToks]
      split
      · simp only [renderS]
        rw [parenAfter_cons, if_neg (by decide), parenAfter_word hok]
        decide
      · simp only [renderS]
        rw [parenAfter_word hok, parenAfter_word hok]

theorem shouldQuote_after_quote (w : List Char) (ts : List SToken) :
    shouldQuote w (some dquote) ts = false := by
  unfold shouldQuote prevBlocks isQuoteChar
  simp

/-- Idempotence of the reserved-word substitution at the token level: tokens
already wrapped in quotes are never re-quoted, unquoted tokens keep failing
the same conditions. -/
theorem processToks_idem : ∀ (ts : List SToken) (prev : Option Char), wfToks ts = true →
    processToks prev (processToks prev ts) = processToks prev ts := by
  intro ts
  induction ts with
  | nil => intro prev _; rfl
  | cons tk rest ih =>
    intro prev hwf
    cases tk with
    | sym c =>
      simp only [wfToks, Bool.and_eq_true] at hwf
      simp only [processToks]
      rw [ih (some c) hwf.2]
    | word w =>
      simp only [wfToks, Bool.and_eq_true] at hwf
      obtain ⟨⟨hok, hnw⟩, hrest⟩ := hwf
      by_cases hq : shouldQuote w prev rest = true
      · rw [processToks, if_pos hq]
        rw [processToks]
        rw [processToks, if_neg (by rw [shouldQuote_after_quote]; exact Bool.false_ne_true)]
        rw [processToks]
        rw [ih (some dquote) hrest]
      · rw [processToks, if_neg hq]
        have h5 : shouldQuote w prev (processToks (some (w.getLastD 'a')) rest) =
            shouldQuote w prev rest := by
          unfold shouldQuote
          rw [parenAfter_processToks rest (some (w.getLastD 'a')) hrest]
        rw [processToks, if_neg (by rw [h5]; exact hq)]
        rw [ih (some (w.getLastD 'a')) hrest]

theorem headNotWordTok_processToks (q : Option Char) (ts : List SToken)
    (h : headNotWordTok ts = true) : headNotWordTok (processToks q ts) = true := by
  cases ts with
  | nil => rfl
  | cons tk rest =>
    cases tk with
    | sym c => rw [processToks]; rfl
    | word w => exact absurd h (by rw [headNotWordTok]; exact Bool.false_ne_true)

/-- `processToks` preserves well-formedness (it only inserts `"` symbols). -/
theorem wfToks_processToks : ∀ (ts : List SToken) (q : Option Char), wfToks ts = true →
    wfToks (processToks q ts) = true := by
  intro ts
  induction ts with
  | nil => intro q _; rfl
  | cons tk rest ih =>
    intro q hwf
    cases tk with
    | sym c =>
      simp only [wfToks, Bool.and_eq_true] at hwf
      simp only [processToks, wfToks, Bool.and_eq_true]
      exact ⟨hwf.1, ih (some c) hwf.2⟩
    | word w =>
      simp only [wfToks, Bool.and_eq_true] at hwf
      obtain ⟨⟨hok, hnw⟩, hrest⟩ := hwf
      rw [processToks]
      split
      · rw [wfToks, Bool.and_eq_true]
        refine ⟨by decide, ?_⟩
        rw [wfToks, Bool.and_eq_true, Bool.and_eq_true]
        refine ⟨⟨hok, rfl⟩, ?_⟩
        rw [wfToks, Bool.and_eq_true]
        exact ⟨by decide, ih (some dquote) hrest⟩
      · rw [wfToks, Bool.and_eq_true, Bool.and_eq_true]
        exact ⟨⟨hok, headNotWordTok_processToks _ rest hnw⟩, ih (some (w.getLastD 'a')) hrest⟩

theorem renderS_tokenize : ∀ cs : List Char, renderS (tokenize cs) = cs := by
  intro cs
  induction cs with
  | nil => rfl
  | cons c rest ih =>
    rw [tokenize]
    split
    · split
      · rename_i v ts h
        simp only [renderS, List.cons_append]
        rw [h] at ih
        simp only [renderS] at ih
        rw [ih]
      · rename_i ts h
        simp only [renderS, List.singleton_append]
        rw [ih]
    · simp only [renderS]
      rw [ih]

theorem wfToks_tokenize : ∀ cs : List Char, wfToks (tokenize cs) = true := by
  intro cs
  induction cs with
  | nil => rfl
  | cons c rest ih =>
    rw [tokenize]
    split
    · rename_i hc
      split
      · rename_i v ts h
        rw [h] at ih
        rw [wfToks, Bool.and_eq_true, Bool.and_eq_true] at ih ⊢
        obtain ⟨⟨hok, hnw⟩, hwf⟩ := ih
        refine ⟨⟨?_, hnw⟩, hwf⟩
        rw [wordOk, Bool.and_eq_true] at hok ⊢
        refine ⟨rfl, ?_⟩
        rw [List.all_cons, Bool.and_eq_true]
        exact ⟨hc, hok.2⟩
      · rename_i ts h
        rw [wfToks, Bool.and_eq_true, Bool.and_eq_true]
        refine ⟨⟨by simp [wordOk, hc], ?_⟩, ih⟩
        cases ht : tokenize rest with
        | nil => rfl
        | cons tk ts2 =>
          cases tk with
          | word v => exact absurd ht (fun hcon => h v ts2 hcon)
          | sym d => rfl
    · rename_i hc
      rw [wfToks, Bool.and_eq_true]
      constructor
      · rw [bool_eq_false hc]
        rfl
      · exact ih

theorem tokenize_not_word_headed {X : List Char}
    (h : headNotWordTok (tokenize X) = true) :
    (∀ v ts, tokenize X ≠ SToken.word v :: ts) := by
  intro v ts hcon
  rw [hcon] at h
  exact absurd h (by rw [headNotWordTok]; exact Bool.false_ne_true)

theorem tokenize_word_prepend : ∀ (w X : List Char), w ≠ [] → w.all isWord = true →
    headNotWordTok (tokenize X) = true →
    tokenize (w ++ X) = SToken.word w :: tokenize X := by
  intro w
  induction w with
  | nil => intro X h _ _; exact absurd rfl h
  | cons a w' ih =>
    intro X _ hall hX
    rw [List.all_cons, Bool.and_eq_true] at hall
    cases w' with
    | nil =>
      rw [List.singleton_append, tokenize, if_pos hall.1]
      cases h : tokenize X with
      | nil => rfl
      | cons tk ts =>
        cases tk with
        | word v => exact absurd h (by intro hc; exact tokenize_not_word_headed hX v ts hc)
        | sym d => rfl
    | cons b w'' =>
      rw [List.cons_append, tokenize, if_pos hall.1]
      rw [ih X (by intro hc; exact List.noConfusion hc) hall.2 hX]

/-- Re-tokenizing rendered well-formed tokens recovers them. -/
theorem tokenize_renderS : ∀ ts : List SToken, wfToks ts = true →
    tokenize (renderS ts) = ts := by
  intro ts
  induction ts with
  | nil => intro _; rfl
  | cons tk rest ih =>
    intro hwf
    cases tk with
    | sym c =>
      simp only [wfToks, Bool.and_eq_true] at hwf
      simp only [renderS]
      rw [tokenize, if_neg (by rw [bool_not_true hwf.1]; exact Bool.false_ne_true)]
      rw [ih hwf.2]
    | word w =>
      simp only [wfToks, Bool.and_eq_true] at hwf
      obtain ⟨⟨hok, hnw⟩, hrest⟩ := hwf
      rw [wordOk, Bool.and_eq_true] at hok
      simp only [renderS]
      rw [tokenize_word_prepend w (renderS rest)
        (by intro hc; subst hc; exact absurd hok.1 (by decide))
        hok.2
        (by rw [ih hrest]; exact hnw)]
      rw [ih hrest]

/-- Idempotence of the reserved-word substitution pass at the string level. -/
theorem processContent_idem (content : List Char) :
    processContent (processContent content) = processContent content := by
  unfold processContent
  rw [tokenize_renderS _ (wfToks_processToks _ none (wfToks_tokenize content))]
  rw [processToks_idem _ none (wfToks_tokenize content)]

/-! ### Whole-string idempotence of the projection rewrite

The remaining lemmas lift the content-level idempotence to the full
`rewriteSql` scan.  The key tool is a relation `QR` between a character list
and the same list with some maximal quotable word runs wrapped in double
quotes; every scanning primitive of the SELECT-clause pattern is shown to
behave identically on related lists, and the output of `rewriteSql` is shown
to be related to its input. -/

theorem le_char_iff (a c : Char) : (a ≤ c) ↔ (a.toNat ≤ c.toNat) := Iff.rfl

theorem toNat_ofNat_small (n : Nat) (h : n < 128) : (Char.ofNat n).toNat = n := by
  unfold Char.ofNat
  rw [dif_pos (Or.inl (by omega))]
  rfl

theorem char_eq_of_toNat {a b : Char} (h : a.toNat = b.toNat) : a = b :=
  Char.ext (UInt32.ext h)

theorem lowerC_upperC (c : Char) : lowerC (upperC c) = lowerC c := by
  unfold upperC
  by_cases h : ('a' ≤ c && c ≤ 'z') = true
  · rw [if_pos h]
    rw [Bool.and_eq_true] at h
    obtain ⟨h1, h2⟩ := h
    rw [decide_eq_true_eq, le_char_iff] at h1 h2
    have ha : Char.toNat 'a' = 97 := by decide
    have hz : Char.toNat 'z' = 122 := by decide
    rw [ha] at h1; rw [hz] at h2
    have hv : (Char.ofNat (c.toNat - 32)).toNat = c.toNat - 32 :=
      toNat_ofNat_small _ (by omega)
    unfold lowerC
    have hA : ('A' ≤ Char.ofNat (c.toNat - 32) && Char.ofNat (c.toNat - 32) ≤ 'Z') = true := by
      rw [Bool.and_eq_true, decide_eq_true_eq, decide_eq_true_eq, le_char_iff, le_char_iff, hv]
      have h65 : Char.toNat 'A' = 65 := by decide
      have h90 : Char.toNat 'Z' = 90 := by decide
      rw [h65, h90]
      omega
    rw [if_pos hA, hv]
    have hc : ('A' ≤ c && c ≤ 'Z') = false := by
      rw [Bool.and_eq_false_iff]
      right
      rw [← Bool.not_eq_true, decide_eq_true_eq, le_char_iff]
      have h90 : Char.toNat 'Z' = 90 := by decide
      rw [h90]
      omega
    rw [hc, if_neg (by simp)]
    apply char_eq_of_toNat
    rw [toNat_ofNat_small _ (by omega)]
    omega
  · rw [if_neg h]

theorem upperC_lowerC (c : Char) : upperC (lowerC c) = upperC c := by
  unfold lowerC
  by_cases h : ('A' ≤ c && c ≤ 'Z') = true
  · rw [if_pos h]
    rw [Bool.and_eq_true] at h
    obtain ⟨h1, h2⟩ := h
    rw [decide_eq_true_eq, le_char_iff] at h1 h2
    have ha : Char.toNat 'A' = 65 := by decide
    have hz : Char.toNat 'Z' = 90 := by decide
    rw [ha] at h1; rw [hz] at h2
    have hv : (Char.ofNat (c.toNat + 32)).toNat = c.toNat + 32 :=
      toNat_ofNat_small _ (by omega)
    unfold upperC
    have hA : ('a' ≤ Char.ofNat (c.toNat + 32) && Char.ofNat (c.toNat + 32) ≤ 'z') = true := by
      rw [Bool.and_eq_true, decide_eq_true_eq, decide_eq_true_eq, le_char_iff, le_char_iff, hv]
      have h97 : Char.toNat 'a' = 97 := by decide
      have h122 : Char.toNat 'z' = 122 := by decide
      rw [h97, h122]
      omega
    rw [if_pos hA, hv]
    have hc : ('a' ≤ c && c ≤ 'z') = false := by
      rw [Bool.and_eq_false_iff]
      left
      rw [← Bool.not_eq_true, decide_eq_true_eq, le_char_iff]
      have h97 : Char.toNat 'a' = 97 := by decide
      rw [h97]
      omega
    rw [hc, if_neg (by simp)]
    apply char_eq_of_toNat
    rw [toNat_ofNat_small _ (by omega)]
    omega
  · rw [if_neg h]

theorem lowerL_upperL (w : List Char) : lowerL (upperL w) = lowerL w := by
  unfold lowerL upperL
  rw [List.map_map]
  exact List.map_congr_left (fun c _ => lowerC_upperC c)

theorem upperL_lowerL (w : List Char) : upperL (lowerL w) = upperL w := by
  unfold lowerL upperL
  rw [List.map_map]
  exact List.map_congr_left (fun c _ => upperC_lowerC c)

def headNotWordChar : List Char → Bool
  | [] => true
  | c :: _ => !isWord c

theorem prefixEq_refl : ∀ l : List Char, prefixEq l l = true := by
  intro l
  induction l with
  | nil => rfl
  | cons c rest ih =>
    rw [prefixEq, ih]
    simp

theorem prefixEq_append_any : ∀ p l x : List Char, prefixEq p l = true →
    prefixEq p (l ++ x) = true := by
  intro p
  induction p with
  | nil => intro l x _; rfl
  | cons a p2 ih =>
    intro l x h
    cases l with
    | nil => exact absurd h (by rw [prefixEq]; exact Bool.false_ne_true)
    | cons c rest =>
      rw [prefixEq, Bool.and_eq_true] at h
      rw [List.cons_append, prefixEq, Bool.and_eq_true]
      exact ⟨h.1, ih rest x h.2⟩

/-- Bool suffix test. -/
def sfxL (p l : List Char) : Bool := prefixEq p.reverse l.reverse

theorem sfxL_self (l : List Char) : sfxL l l = true := prefixEq_refl _

theorem sfxL_cons (p : List Char) (c : Char) (l : List Char) (h : sfxL p l = true) :
    sfxL p (c :: l) = true := by
  unfold sfxL at h ⊢
  rw [List.reverse_cons]
  exact prefixEq_append_any _ _ _ h

theorem ws_not_word {c : Char} (h : isWs c = true) : isWord c = false := by
  cases hw : isWord c with
  | false => rfl
  | true =>
    exfalso
    rw [word_not_ws hw] at h
    exact Bool.false_ne_true h

theorem uint32_le_iff (a b : UInt32) : (a ≤ b) ↔ (a.toNat ≤ b.toNat) := Iff.rfl

theorem lowerC_nonword {c : Char} (h : isWord c = false) : lowerC c = c := by
  unfold lowerC
  rw [if_neg]
  intro hAZ
  rw [Bool.and_eq_true] at hAZ
  have h1 := of_decide_eq_true hAZ.1
  have h2 := of_decide_eq_true hAZ.2
  rw [le_char_iff] at h1 h2
  have ha : Char.toNat 'A' = 65 := by decide
  have hz : Char.toNat 'Z' = 90 := by decide
  rw [ha] at h1; rw [hz] at h2
  have hup : c.isUpper = true := by
    rw [Char.isUpper, Bool.and_eq_true]
    constructor
    · rw [decide_eq_true_eq]
      show (65 : UInt32) ≤ c.val
      rw [uint32_le_iff]
      have he : (65 : UInt32).toNat = 65 := by decide
      rw [he]
      exact h1
    · rw [decide_eq_true_eq]
      show c.val ≤ (90 : UInt32)
      rw [uint32_le_iff]
      have he : (90 : UInt32).toNat = 90 := by decide
      rw [he]
      exact h2
  have hw : isWord c = true := by
    rw [isWord, Char.isAlphanum, Char.isAlpha, hup]
    simp
  rw [hw] at h
  exact Bool.noConfusion h

theorem word_ne_lower_nonword {p c : Char} (hp : isWord p = true) (hc : isWord c = false) :
    decide (p = lowerC c) = false := by
  rw [lowerC_nonword hc]
  cases hd : decide (p = c) with
  | false => rfl
  | true =>
    exfalso
    have := of_decide_eq_true hd
    rw [this, hc] at hp
    exact Bool.false_ne_true hp

theorem from_data : ("from").data = ['f', 'r', 'o', 'm'] := rfl

theorem select_data : ("select").data = ['s', 'e', 'l', 'e', 'c', 't'] := rfl

theorem word_ne_semi {c : Char} (h : isWord c = true) : decide (c = ';') = false := by
  cases hd : decide (c = ';') with
  | false => rfl
  | true =>
    exfalso
    have hc := of_decide_eq_true hd
    rw [hc] at h
    exact absurd h (by decide)

/-- A non-word character cannot start a `FROM\s` match. -/
theorem fromWs_nonword_head {c : Char} (z : List Char) (hc : isWord c = false) :
    fromWsAt (c :: z) = false := by
  rw [fromWsAt, from_data]
  have hp : prefixCI ['f', 'r', 'o', 'm'] (c :: z) = false := by
    simp only [prefixCI]
    rw [word_ne_lower_nonword (by decide) hc]
    exact Bool.false_and _
  rw [hp]
  exact Bool.false_and _

theorem headNotWordChar_append {a r : List Char} (ha : headNotWordChar a = true)
    (hr : headNotWordChar r = true) : headNotWordChar (a ++ r) = true := by
  cases a with
  | nil => exact hr
  | cons c a2 => exact ha

/-- A word run that does not end in a spelling of `from`, followed by a
non-word character, cannot start a `FROM\s` match. -/
theorem fromWs_append_false : ∀ w z : List Char, w ≠ [] → w.all isWord = true →
    sfxL (("from").data) (lowerL w) = false → headNotWordChar z = true →
    fromWsAt (w ++ z) = false := by
  intro w z hne hall hsfx hz
  by_cases hp : prefixCI (("from").data) (w ++ z) = true
  · rw [from_data] at hp
    cases w with
    | nil => exact absurd rfl hne
    | cons a w1 =>
      cases w1 with
      | nil =>
        exfalso
        simp only [List.cons_append, List.nil_append, prefixCI, Bool.and_eq_true] at hp
        cases z with
        | nil =>
          have h2 := hp.2
          simp only [prefixCI] at h2
          exact Bool.noConfusion h2
        | cons zc z2 =>
          have hzc : isWord zc = false := bool_not_true hz
          have h2 := hp.2
          simp only [prefixCI, Bool.and_eq_true] at h2
          rw [word_ne_lower_nonword (by decide) hzc] at h2
          exact Bool.noConfusion h2.1
      | cons b w2 =>
        cases w2 with
        | nil =>
          exfalso
          simp only [List.cons_append, List.nil_append, prefixCI, Bool.and_eq_true] at hp
          cases z with
          | nil =>
            have h2 := hp.2.2
            simp only [prefixCI] at h2
            exact Bool.noConfusion h2
          | cons zc z2 =>
            have hzc : isWord zc = false := bool_not_true hz
            have h2 := hp.2.2
            simp only [prefixCI, Bool.and_eq_true] at h2
            rw [word_ne_lower_nonword (by decide) hzc] at h2
            exact Bool.noConfusion h2.1
        | cons c3 w3 =>
          cases w3 with
          | nil =>
            exfalso
            simp only [List.cons_append, List.nil_append, prefixCI, Bool.and_eq_true] at hp
            cases z with
            | nil =>
              have h2 := hp.2.2.2
              simp only [prefixCI] at h2
              exact Bool.noConfusion h2
            | cons zc z2 =>
              have hzc : isWord zc = false := bool_not_true hz
              have h2 := hp.2.2.2
              simp only [prefixCI, Bool.and_eq_true] at h2
              rw [word_ne_lower_nonword (by decide) hzc] at h2
              exact Bool.noConfusion h2.1
          | cons d4 w4 =>
            cases w4 with
            | nil =>
              exfalso
              simp only [List.cons_append, List.nil_append, prefixCI, Bool.and_eq_true] at hp
              have e1 := of_decide_eq_true hp.1
              have e2 := of_decide_eq_true hp.2.1
              have e3 := of_decide_eq_true hp.2.2.1
              have e4 := of_decide_eq_true hp.2.2.2.1
              have hlw : lowerL [a, b, c3, d4] = ("from").data := by
                rw [from_data]
                simp only [lowerL, List.map_cons, List.map_nil]
                rw [← e1, ← e2, ← e3, ← e4]
              rw [hlw, sfxL_self] at hsfx
              exact Bool.noConfusion hsfx
            | cons e5 w5 =>
              have he : isWord e5 = true := List.all_eq_true.mp hall e5 (by simp)
              rw [fromWsAt]
              apply Bool.and_eq_false_iff.mpr
              right
              have hd : (((a :: b :: c3 :: d4 :: e5 :: w5) ++ z).drop 4) = e5 :: (w5 ++ z) := by
                simp only [List.cons_append]
                rfl
              rw [hd]
              show isWs e5 = false
              exact word_not_ws he
  · rw [fromWsAt, bool_eq_false hp]
    exact Bool.false_and _

theorem all_of_contains {L : List (List Char)} {x : List Char} {p : List Char → Bool}
    (hc : L.contains x = true) (ha : L.all p = true) : p x = true := by
  have hx : x ∈ L := List.elem_iff.mp hc
  exact List.all_eq_true.mp ha x hx

/-- No quotable reserved word ends in a spelling of `from` (all of them are
checked by evaluation). -/
theorem quotable_no_from_sfx {w : List Char} (hq : quotableWord w = true) :
    sfxL (("from").data) (lowerL w) = false := by
  rw [quotableWord] at hq
  have hall : column_context_words.all (fun v => !(sfxL (("from").data) (lowerL v))) = true := by
    decide
  have h2 : (!(sfxL (("from").data) (lowerL (upperL w)))) = true := all_of_contains hq hall
  rw [lowerL_upperL] at h2
  exact bool_not_true h2

theorem quotable_not_fromWs {w : List Char} (z : List Char) (hok : wordOk w = true)
    (hq : quotableWord w = true) (hz : headNotWordChar z = true) :
    fromWsAt (w ++ z) = false := by
  rw [wordOk, Bool.and_eq_true] at hok
  have hne : w ≠ [] := by
    intro hc
    rw [hc] at hok
    exact absurd hok.1 (by decide)
  exact fromWs_append_false w z hne hok.2 (quotable_no_from_sfx hq) hz

/-- Relation between a character list and the same list with some of its
maximal quotable word runs wrapped in double quotes.  The flag records
whether a wrapped run may start at the current position, i.e. whether the
previous character (if any) was not a word character. -/
inductive QR : Bool → List Char → List Char → Prop
  | nil : ∀ g, QR g [] []
  | keep : ∀ (g : Bool) (c : Char) (a b : List Char),
      QR (!isWord c) a b → QR g (c :: a) (c :: b)
  | wrap : ∀ (w a b : List Char), wordOk w = true → quotableWord w = true →
      headNotWordChar a = true → QR false a b →
      QR true (w ++ a) (dquote :: (w ++ dquote :: b))

theorem wordOk_ne_nil {w : List Char} (hok : wordOk w = true) : w ≠ [] := by
  intro hc
  rw [hc] at hok
  exact absurd hok (by decide)

theorem wordOk_all {w : List Char} (hok : wordOk w = true) : w.all isWord = true := by
  rw [wordOk, Bool.and_eq_true] at hok
  exact hok.2

theorem QR_ne_nil {g : Bool} {a b : List Char} (h : QR g a b) (ha : a ≠ []) : b ≠ [] := by
  cases h with
  | nil => exact absurd rfl ha
  | keep g c a2 b2 _ => simp
  | wrap w a2 b2 hok _ _ _ => simp

def headIsWs : List Char → Bool
  | [] => false
  | c :: _ => isWs c

theorem QR_headIsWs {g : Bool} {a b : List Char} (h : QR g a b) :
    headIsWs a = headIsWs b := by
  cases h with
  | nil => rfl
  | keep g c a2 b2 _ => rfl
  | wrap w a2 b2 hok _ _ _ =>
    cases w with
    | nil => exact absurd hok (by decide)
    | cons wc w2 =>
      have hwc : isWord wc = true := List.all_eq_true.mp (wordOk_all hok) wc (by simp)
      show isWs wc = isWs dquote
      rw [word_not_ws hwc]
      decide

def wsAfterPat (pat l : List Char) : Bool := headIsWs (l.drop pat.length)

/-- If a word-character pattern with a following whitespace requirement
matches at the start of a word run followed by a non-word character, the
pattern is exactly the lowered run. -/
theorem prefixCI_wordrun : ∀ (pat w z : List Char), pat.all isWord = true →
    w.all isWord = true → headNotWordChar z = true →
    (prefixCI pat (w ++ z) && wsAfterPat pat (w ++ z)) = true → pat = lowerL w := by
  intro pat
  induction pat with
  | nil =>
    intro w z _ hwall hz hx
    cases w with
    | nil => rfl
    | cons wc w2 =>
      exfalso
      have hwc : isWord wc = true := List.all_eq_true.mp hwall wc (by simp)
      have h2 : isWs wc = true := by
        have h3 : (prefixCI [] ((wc :: w2) ++ z) && wsAfterPat [] ((wc :: w2) ++ z))
            = (true && isWs wc) := rfl
        rw [h3, Bool.true_and] at hx
        exact hx
      rw [word_not_ws hwc] at h2
      exact Bool.noConfusion h2
  | cons p pat2 ih =>
    intro w z hall hwall hz hx
    have hp : isWord p = true := List.all_eq_true.mp hall p (by simp)
    cases w with
    | nil =>
      exfalso
      cases z with
      | nil =>
        simp only [List.nil_append, prefixCI, Bool.false_and] at hx
        exact Bool.noConfusion hx
      | cons zc z2 =>
        have hzc : isWord zc = false := bool_not_true hz
        simp only [List.nil_append, prefixCI] at hx
        rw [word_ne_lower_nonword hp hzc] at hx
        simp at hx
    | cons wc w2 =>
      have hstep : (prefixCI (p :: pat2) ((wc :: w2) ++ z) &&
          wsAfterPat (p :: pat2) ((wc :: w2) ++ z))
          = (decide (p = lowerC wc) && (prefixCI pat2 (w2 ++ z) && wsAfterPat pat2 (w2 ++ z))) := by
        simp only [List.cons_append, prefixCI, List.append_eq]
        unfold wsAfterPat
        simp only [List.length_cons, List.drop_succ_cons]
        rw [Bool.and_assoc]
      rw [hstep, Bool.and_eq_true] at hx
      have hpw := of_decide_eq_true hx.1
      have hall2 : pat2.all isWord = true := by
        simp only [List.all_cons, Bool.and_eq_true] at hall
        exact hall.2
      have hwall2 : w2.all isWord = true := by
        simp only [List.all_cons, Bool.and_eq_true] at hwall
        exact hwall.2
      have hrec := ih w2 z hall2 hwall2 hz hx.2
      have hl2 : lowerL w2 = List.map lowerC w2 := rfl
      rw [hl2] at hrec
      show p :: pat2 = List.map lowerC (wc :: w2)
      rw [List.map_cons, ← hpw, ← hrec]

/-- A word-character pattern with a following whitespace requirement matches
at the same positions of two related lists, provided no quotable word spells
a suffix of the pattern. -/
theorem QR_pattern {g : Bool} {a b : List Char} (h : QR g a b) : ∀ pat : List Char,
    pat.all isWord = true →
    (∀ pat2 w2, pat2 <:+ pat → wordOk w2 = true → quotableWord w2 = true → lowerL w2 ≠ pat2) →
    (prefixCI pat a && wsAfterPat pat a) = (prefixCI pat b && wsAfterPat pat b) := by
  induction h with
  | nil g => intro pat _ _; rfl
  | keep g c a2 b2 sub ih =>
    intro pat hall hpat
    cases pat with
    | nil => rfl
    | cons p pat2 =>
      have hL : ∀ x : List Char, (prefixCI (p :: pat2) (c :: x) && wsAfterPat (p :: pat2) (c :: x))
          = (decide (p = lowerC c) && (prefixCI pat2 x && wsAfterPat pat2 x)) := by
        intro x
        simp only [prefixCI]
        unfold wsAfterPat
        simp only [List.length_cons, List.drop_succ_cons]
        rw [Bool.and_assoc]
      rw [hL a2, hL b2]
      have hall2 : pat2.all isWord = true := by
        simp only [List.all_cons, Bool.and_eq_true] at hall
        exact hall.2
      have hpat2 : ∀ pat3 w2, pat3 <:+ pat2 → wordOk w2 = true → quotableWord w2 = true →
          lowerL w2 ≠ pat3 :=
        fun pat3 w2 hs => hpat pat3 w2 (hs.trans (List.suffix_cons p pat2))
      rw [ih pat2 hall2 hpat2]
  | wrap w a2 b2 hok hq hh sub ih =>
    intro pat hall hpat
    have hRHS : (prefixCI pat (dquote :: (w ++ dquote :: b2)) &&
        wsAfterPat pat (dquote :: (w ++ dquote :: b2))) = false := by
      cases pat with
      | nil =>
        show (true && isWs dquote) = false
        decide
      | cons p pat2 =>
        have hp : isWord p = true := List.all_eq_true.mp hall p (by simp)
        simp only [prefixCI]
        rw [word_ne_lower_nonword hp (by decide : isWord dquote = false)]
        rw [Bool.false_and, Bool.false_and]
    have hLHS : (prefixCI pat (w ++ a2) && wsAfterPat pat (w ++ a2)) = false := by
      by_cases hx : (prefixCI pat (w ++ a2) && wsAfterPat pat (w ++ a2)) = true
      · exfalso
        have heq : pat = lowerL w := prefixCI_wordrun pat w a2 hall (wordOk_all hok) hh hx
        exact hpat pat w (List.suffix_refl pat) hok hq heq.symm
      · exact bool_eq_false hx
    rw [hLHS, hRHS]

/-- No quotable reserved word spells a suffix of `from` (checked by
evaluation over the word list). -/
theorem no_quotable_from_sfx : ∀ pat2 w2 : List Char, pat2 <:+ (("from").data) →
    wordOk w2 = true → quotableWord w2 = true → lowerL w2 ≠ pat2 := by
  intro pat2 w2 hs _ hq heq
  have hm : pat2 ∈ ((("from").data).tails) := (List.mem_tails pat2 (("from").data)).mpr hs
  have hfact : ((("from").data).tails).all
      (fun p2 => !(column_context_words.contains (upperL p2))) = true := by decide
  have h2 := List.all_eq_true.mp hfact pat2 hm
  have h3 := bool_not_true h2
  rw [quotableWord] at hq
  rw [← heq, upperL_lowerL] at h3
  rw [h3] at hq
  exact Bool.noConfusion hq

/-- No quotable reserved word spells a suffix of `select`. -/
theorem no_quotable_select_sfx : ∀ pat2 w2 : List Char, pat2 <:+ (("select").data) →
    wordOk w2 = true → quotableWord w2 = true → lowerL w2 ≠ pat2 := by
  intro pat2 w2 hs _ hq heq
  have hm : pat2 ∈ ((("select").data).tails) := (List.mem_tails pat2 (("select").data)).mpr hs
  have hfact : ((("select").data).tails).all
      (fun p2 => !(column_context_words.contains (upperL p2))) = true := by decide
  have h2 := List.all_eq_true.mp hfact pat2 hm
  have h3 := bool_not_true h2
  rw [quotableWord] at hq
  rw [← heq, upperL_lowerL] at h3
  rw [h3] at hq
  exact Bool.noConfusion hq

theorem fromWs_bridge (l : List Char) :
    fromWsAt l = (prefixCI (("from").data) l && wsAfterPat (("from").data) l) := by
  rw [fromWsAt]
  unfold wsAfterPat
  have h4 : ((("from").data).length) = 4 := rfl
  rw [h4]
  cases hd : l.drop 4 with
  | nil => rfl
  | cons c t => rfl

theorem QR_fromWs {g : Bool} {a b : List Char} (h : QR g a b) : fromWsAt a = fromWsAt b := by
  rw [fromWs_bridge a, fromWs_bridge b]
  exact QR_pattern h (("from").data) (by decide) no_quotable_from_sfx

theorem QR_dropWs {g : Bool} {a b : List Char} (h : QR g a b) :
    ∃ g2, QR g2 (a.dropWhile isWs) (b.dropWhile isWs) := by
  induction h with
  | nil g => exact ⟨g, QR.nil g⟩
  | keep g c a2 b2 sub ih =>
    by_cases hc : isWs c = true
    · rw [List.dropWhile_cons, if_pos hc, List.dropWhile_cons, if_pos hc]
      exact ih
    · rw [List.dropWhile_cons, if_neg hc, List.dropWhile_cons, if_neg hc]
      exact ⟨g, QR.keep g c a2 b2 sub⟩
  | wrap w a2 b2 hok hq hh sub ih =>
    cases w with
    | nil => exact absurd hok (by decide)
    | cons wc w2 =>
      have hwc : isWord wc = true := List.all_eq_true.mp (wordOk_all hok) wc (by simp)
      have hnw : ¬ (isWs wc = true) := by
        rw [word_not_ws hwc]
        exact Bool.false_ne_true
      have hnq : ¬ (isWs dquote = true) := by decide
      rw [List.cons_append, List.dropWhile_cons, if_neg hnw, List.dropWhile_cons, if_neg hnq]
      exact ⟨true, QR.wrap (wc :: w2) a2 b2 hok hq hh sub⟩

theorem look_bridge (l : List Char) :
    lookWsFrom l = (headIsWs l && fromWsAt (l.dropWhile isWs)) := by
  unfold lookWsFrom
  cases l with
  | nil => rfl
  | cons c t => rfl

theorem QR_look {g : Bool} {a b : List Char} (h : QR g a b) :
    lookWsFrom a = lookWsFrom b := by
  rw [look_bridge a, look_bridge b, QR_headIsWs h]
  obtain ⟨g2, h2⟩ := QR_dropWs h
  rw [QR_fromWs h2]

theorem QR_append {g : Bool} {a b : List Char} (h : QR g a b) : ∀ r s : List Char,
    headNotWordChar r = true → (∀ g2, QR g2 r s) → QR g (a ++ r) (b ++ s) := by
  induction h with
  | nil g => intro r s _ hrs; exact hrs g
  | keep g c a2 b2 sub ih =>
    intro r s hr hrs
    exact QR.keep g c (a2 ++ r) (b2 ++ s) (ih r s hr hrs)
  | wrap w a2 b2 hok hq hh sub ih =>
    intro r s hr hrs
    have hh2 : headNotWordChar (a2 ++ r) = true := headNotWordChar_append hh hr
    have hw := QR.wrap w (a2 ++ r) (b2 ++ s) hok hq hh2 (ih r s hr hrs)
    rw [List.append_assoc]
    simpa [List.cons_append, List.append_assoc] using hw

theorem QR_keeps_any : ∀ (u a b : List Char), (∀ g2, QR g2 a b) → ∀ g, QR g (u ++ a) (u ++ b) := by
  intro u
  induction u with
  | nil => intro a b hrs g; exact hrs g
  | cons c u2 ih =>
    intro a b hrs g
    exact QR.keep g c (u2 ++ a) (u2 ++ b) (ih a b hrs (!isWord c))

theorem QR_keeps_word : ∀ (u : List Char), u.all isWord = true → u ≠ [] →
    ∀ {a b : List Char}, QR false a b → ∀ g, QR g (u ++ a) (u ++ b) := by
  intro u
  induction u with
  | nil => intro _ hne; exact absurd rfl hne
  | cons c u2 ih =>
    intro hall _ a b sub g
    have hc : isWord c = true := List.all_eq_true.mp hall c (by simp)
    cases u2 with
    | nil =>
      have sub2 : QR (!isWord c) a b := by
        rw [hc]
        exact sub
      exact QR.keep g c a b sub2
    | cons d u3 =>
      have hall2 : (d :: u3).all isWord = true := by
        simp only [List.all_cons, Bool.and_eq_true] at hall ⊢
        exact hall.2
      exact QR.keep g c _ _ (ih hall2 (by simp) sub (!isWord c))

theorem QR_behead {g : Bool} {a b : List Char} (h : QR g a b) :
    ∀ c a2, a = c :: a2 → isWord c = false → ∃ b2, b = c :: b2 ∧ QR true a2 b2 := by
  cases h with
  | nil => intro c a2 ha _; exact absurd ha (by simp)
  | keep g c0 a0 b0 sub =>
    intro c a2 ha hcw
    rw [List.cons.injEq] at ha
    obtain ⟨hc0, ha0⟩ := ha
    refine ⟨b0, by rw [hc0], ?_⟩
    have sub2 : QR true a0 b0 := by
      have he : (!isWord c0) = true := by rw [hc0, hcw]; rfl
      rw [← he]
      exact sub
    rw [← ha0]
    exact sub2
  | wrap w a0 b0 hok hq hh sub =>
    intro c a2 ha hcw
    exfalso
    cases w with
    | nil => exact absurd hok (by decide)
    | cons wc wt =>
      rw [List.cons_append, List.cons.injEq] at ha
      have hwc : isWord wc = true := List.all_eq_true.mp (wordOk_all hok) wc (by simp)
      rw [ha.1] at hwc
      rw [hwc] at hcw
      exact Bool.noConfusion hcw

theorem QR_peel : ∀ (pat : List Char) {g : Bool} {a b : List Char}, QR g a b →
    pat.all isWord = true → prefixCI pat a = true → prefixCI pat b = true →
    ∃ g2, QR g2 (a.drop pat.length) (b.drop pat.length) := by
  intro pat
  induction pat with
  | nil => intro g a b h _ _ _; exact ⟨g, h⟩
  | cons p pat2 ih =>
    intro g a b h hall hpa hpb
    cases h with
    | nil =>
      simp only [prefixCI] at hpa
      exact Bool.noConfusion hpa
    | keep g c a2 b2 sub =>
      simp only [prefixCI, Bool.and_eq_true] at hpa hpb
      have hall2 : pat2.all isWord = true := by
        simp only [List.all_cons, Bool.and_eq_true] at hall
        exact hall.2
      exact ih sub hall2 hpa.2 hpb.2
    | wrap w a2 b2 hok hq hh sub =>
      exfalso
      have hp : isWord p = true := List.all_eq_true.mp hall p (by simp)
      simp only [prefixCI] at hpb
      rw [word_ne_lower_nonword hp (by decide : isWord dquote = false)] at hpb
      simp at hpb

theorem look_head_false {c : Char} (t : List Char) (hc : isWs c = false) :
    lookWsFrom (c :: t) = false := by
  rw [look_bridge]
  show (isWs c && _) = false
  rw [hc]
  exact Bool.false_and _

/-- Inversion of one `findSplit` step. -/
theorem findSplit_cons_inv {c : Char} {t e r : List Char}
    (h : findSplit (c :: t) = some (e, r)) :
    (lookWsFrom (c :: t) = true ∧ e = [] ∧ r = c :: t) ∨
    (lookWsFrom (c :: t) = false ∧ decide (c = ';') = false ∧ fromWsAt t = false ∧
      ∃ e2, e = c :: e2 ∧ findSplit t = some (e2, r)) := by
  rw [findSplit] at h
  by_cases hl : lookWsFrom (c :: t) = true
  · rw [if_pos hl] at h
    simp only [Option.some_inj, Prod.mk.injEq] at h
    exact Or.inl ⟨hl, h.1.symm, h.2.symm⟩
  · rw [if_neg hl] at h
    by_cases hb : (decide (c = ';') || fromWsAt t) = true
    · rw [if_pos hb] at h
      exact Option.noConfusion h
    · rw [if_neg hb] at h
      have hb2 := bool_eq_false hb
      rw [Bool.or_eq_false_iff] at hb2
      cases hs : findSplit t with
      | none => rw [hs] at h; exact Option.noConfusion h
      | some p =>
        rw [hs] at h
        simp only [Option.map_some', Option.some_inj, Prod.mk.injEq] at h
        exact Or.inr ⟨bool_eq_false hl, hb2.1, hb2.2,
          ⟨p.1, h.1.symm, by rw [← h.2]⟩⟩

theorem findSplit_decomp : ∀ l e r : List Char, findSplit l = some (e, r) → l = e ++ r := by
  intro l
  induction l with
  | nil => intro e r h; exact Option.noConfusion h
  | cons c t ih =>
    intro e r h
    rcases findSplit_cons_inv h with ⟨_, he, hr⟩ | ⟨_, _, _, e2, he, hs⟩
    · rw [he, hr]; rfl
    · rw [he, List.cons_append]
      rw [← ih e2 r hs]

theorem findSplit_some_look : ∀ l e r : List Char, findSplit l = some (e, r) →
    lookWsFrom r = true := by
  intro l
  induction l with
  | nil => intro e r h; exact Option.noConfusion h
  | cons c t ih =>
    intro e r h
    rcases findSplit_cons_inv h with ⟨hl, _, hr⟩ | ⟨_, _, _, e2, _, hs⟩
    · rw [hr]; exact hl
    · exact ih e2 r hs

/-- Walking `findSplit` through a consumed word run. -/
theorem consumes_word_facts : ∀ w z a r : List Char,
    findSplit (w ++ z) = some (w ++ a, r) →
    findSplit z = some (a, r) ∧ (w ≠ [] → fromWsAt z = false) := by
  intro w
  induction w with
  | nil =>
    intro z a r h
    exact ⟨h, fun hc => absurd rfl hc⟩
  | cons wi w2 ih =>
    intro z a r h
    rw [List.cons_append, List.cons_append] at h
    rcases findSplit_cons_inv h with ⟨_, he, _⟩ | ⟨_, _, hfw, e2, he, hs⟩
    · exact absurd he (by simp)
    · rw [List.cons.injEq] at he
      rw [← he.2] at hs
      have hrec := ih z a r hs
      refine ⟨hrec.1, fun _ => ?_⟩
      cases hw2 : w2 with
      | nil =>
        rw [hw2, List.nil_append] at hfw
        exact hfw
      | cons d w3 => exact hrec.2 (by rw [hw2]; simp)

theorem sfxL_tail_false {p : List Char} {a : Char} {l : List Char}
    (h : sfxL p (lowerL (a :: l)) = false) : sfxL p (lowerL l) = false := by
  cases hs : sfxL p (lowerL l) with
  | false => rfl
  | true =>
    exfalso
    have h2 := sfxL_cons p (lowerC a) (lowerL l) hs
    have h3 : lowerL (a :: l) = lowerC a :: lowerL l := rfl
    rw [h3, h2] at h
    exact Bool.noConfusion h

/-- `findSplit` passes through a word run that does not end in a spelling of
`from`, provided the text after the run cannot start a `FROM\s` match. -/
theorem findSplit_through_word : ∀ w z : List Char, w.all isWord = true →
    sfxL (("from").data) (lowerL w) = false → headNotWordChar z = true →
    fromWsAt z = false →
    findSplit (w ++ z) = (findSplit z).map (fun p => (w ++ p.1, p.2)) := by
  intro w
  induction w with
  | nil =>
    intro z _ _ _ _
    rw [List.nil_append]
    cases hs : findSplit z with
    | none => rfl
    | some p => simp
  | cons a w2 ih =>
    intro z hall hsfx hz hf
    have ha : isWord a = true := List.all_eq_true.mp hall a (by simp)
    have hall2 : w2.all isWord = true := by
      simp only [List.all_cons, Bool.and_eq_true] at hall
      exact hall.2
    have hsfx2 : sfxL (("from").data) (lowerL w2) = false := sfxL_tail_false hsfx
    rw [List.cons_append, findSplit]
    have hlk : ¬ (lookWsFrom (a :: (w2 ++ z)) = true) := by
      rw [look_head_false _ (word_not_ws ha)]
      exact Bool.false_ne_true
    rw [if_neg hlk]
    have hfw2 : fromWsAt (w2 ++ z) = false := by
      cases hw2 : w2 with
      | nil => rw [List.nil_append]; exact hf
      | cons d w3 =>
        rw [← hw2]
        refine fromWs_append_false w2 z (by rw [hw2]; simp) hall2 hsfx2 hz
    have hbk : ¬ ((decide (a = ';') || fromWsAt (w2 ++ z)) = true) := by
      rw [word_ne_semi ha, hfw2]
      exact Bool.false_ne_true
    rw [if_neg hbk]
    rw [ih z hall2 hsfx2 hz hf]
    cases hs : findSplit z with
    | none => rfl
    | some p => simp [List.cons_append]

/-- `findSplit` failure is preserved by quote insertion. -/
theorem QR_findSplit_none {g : Bool} {x y : List Char} (h : QR g x y) :
    findSplit x = none → findSplit y = none := by
  induction h with
  | nil g => intro _; rfl
  | keep g c x2 y2 sub ih =>
    intro hn
    have hlk : lookWsFrom (c :: y2) = lookWsFrom (c :: x2) :=
      (QR_look (QR.keep g c x2 y2 sub)).symm
    rw [findSplit] at hn ⊢
    by_cases hl : lookWsFrom (c :: x2) = true
    · rw [if_pos hl] at hn
      exact Option.noConfusion hn
    · rw [if_neg hl] at hn
      have hl2 : ¬ (lookWsFrom (c :: y2) = true) := by rw [hlk]; exact hl
      rw [if_neg hl2]
      by_cases hb : (decide (c = ';') || fromWsAt x2) = true
      · have hb2 : (decide (c = ';') || fromWsAt y2) = true := by
          rw [← QR_fromWs sub]
          exact hb
        rw [if_pos hb2]
      · rw [if_neg hb] at hn
        have hb2 : ¬ ((decide (c = ';') || fromWsAt y2) = true) := by
          rw [← QR_fromWs sub]
          exact hb
        rw [if_neg hb2]
        cases hs : findSplit x2 with
        | none => rw [ih hs]; rfl
        | some p =>
          rw [hs] at hn
          exact Option.noConfusion hn
  | wrap w x2 y2 hok hq hh sub ih =>
    intro hn
    have hqs : isWs dquote = false := by decide
    have hlq : ¬ (lookWsFrom (dquote :: (w ++ dquote :: y2)) = true) := by
      rw [look_head_false _ hqs]
      exact Bool.false_ne_true
    have hhq : headNotWordChar (dquote :: y2) = true := by
      show (!isWord dquote) = true
      decide
    have hfq : fromWsAt (w ++ dquote :: y2) = false :=
      quotable_not_fromWs (dquote :: y2) hok hq hhq
    have hbq : ¬ ((decide (dquote = ';') || fromWsAt (w ++ dquote :: y2)) = true) := by
      rw [hfq]
      intro hcon
      exact absurd hcon (by decide)
    have hlq2 : ¬ (lookWsFrom (dquote :: y2) = true) := by
      rw [look_head_false _ hqs]
      exact Bool.false_ne_true
    rw [findSplit, if_neg hlq, if_neg hbq]
    rw [findSplit_through_word w (dquote :: y2) (wordOk_all hok) (quotable_no_from_sfx hq)
      hhq (fromWs_nonword_head _ (by decide))]
    by_cases hf : fromWsAt x2 = true
    · have hb2 : (decide (dquote = ';') || fromWsAt y2) = true := by
        rw [← QR_fromWs sub, hf]
        exact Bool.or_true _
      rw [findSplit, if_neg hlq2, if_pos hb2]
      rfl
    · have hf2 : fromWsAt x2 = false := bool_eq_false hf
      rw [findSplit_through_word w x2 (wordOk_all hok) (quotable_no_from_sfx hq) hh hf2] at hn
      have hx2 : findSplit x2 = none := by
        cases hs : findSplit x2 with
        | none => rfl
        | some p =>
          rw [hs] at hn
          exact Option.noConfusion hn
      have hb2 : ¬ ((decide (dquote = ';') || fromWsAt y2) = true) := by
        rw [← QR_fromWs sub, hf2]
        intro hcon
        exact absurd hcon (by decide)
      rw [findSplit, if_neg hlq2, if_neg hb2, ih hx2]
      rfl

/-- If `findSplit` consumes exactly `x` and stops at `r`, it consumes exactly
the related `y` and stops at the related `s` on the rewritten text. -/
theorem QR_findSplit_seam {g : Bool} {x y : List Char} (h : QR g x y) :
    ∀ r s : List Char, findSplit (x ++ r) = some (x, r) →
    headNotWordChar r = true → (∀ g2, QR g2 r s) → lookWsFrom s = true →
    findSplit (y ++ s) = some (y, s) := by
  induction h with
  | nil g =>
    intro r s hc hr hrs hls
    rw [List.nil_append]
    cases s with
    | nil => exact absurd hls (by decide)
    | cons c t =>
      rw [findSplit, if_pos hls]
  | keep g c x2 y2 sub ih =>
    intro r s hc hr hrs hls
    rw [List.cons_append] at hc
    rcases findSplit_cons_inv hc with ⟨hl, he, _⟩ | ⟨hl, hsemi, hfw, e2, he, hs⟩
    · exact absurd he (by simp)
    · rw [List.cons.injEq] at he
      have he2 : e2 = x2 := he.2.symm
      rw [he2] at hs
      have happ := QR_append sub r s hr hrs
      have hfull : QR g (c :: (x2 ++ r)) (c :: (y2 ++ s)) := QR.keep g c _ _ happ
      have hl2 : ¬ (lookWsFrom (c :: (y2 ++ s)) = true) := by
        rw [← QR_look hfull, hl]
        exact Bool.false_ne_true
      have hfw2 : fromWsAt (y2 ++ s) = false := by
        rw [← QR_fromWs happ]
        exact hfw
      rw [List.cons_append, findSplit, if_neg hl2]
      have hb2 : ¬ ((decide (c = ';') || fromWsAt (y2 ++ s)) = true) := by
        rw [hsemi, hfw2]
        intro hcon
        exact absurd hcon (by decide)
      rw [if_neg hb2]
      rw [ih r s hs hr hrs hls]
      rfl
  | wrap w x2 y2 hok hq hh sub ih =>
    intro r s hc hr hrs hls
    rw [List.append_assoc] at hc
    have hcw := consumes_word_facts w (x2 ++ r) x2 r hc
    have hsx : findSplit (x2 ++ r) = some (x2, r) := hcw.1
    have hfxr : fromWsAt (x2 ++ r) = false := hcw.2 (wordOk_ne_nil hok)
    have hrec := ih r s hsx hr hrs hls
    have hqs : isWs dquote = false := by decide
    have hhq : headNotWordChar (dquote :: (y2 ++ s)) = true := by
      show (!isWord dquote) = true
      decide
    have hshape : (dquote :: (w ++ dquote :: y2)) ++ s = dquote :: (w ++ (dquote :: (y2 ++ s))) := by
      simp [List.cons_append, List.append_assoc]
    rw [hshape, findSplit]
    have hlq : ¬ (lookWsFrom (dquote :: (w ++ (dquote :: (y2 ++ s)))) = true) := by
      rw [look_head_false _ hqs]
      exact Bool.false_ne_true
    rw [if_neg hlq]
    have hfq : fromWsAt (w ++ (dquote :: (y2 ++ s))) = false :=
      quotable_not_fromWs _ hok hq hhq
    have hbq : ¬ ((decide (dquote = ';') || fromWsAt (w ++ (dquote :: (y2 ++ s)))) = true) := by
      rw [hfq]
      intro hcon
      exact absurd hcon (by decide)
    rw [if_neg hbq]
    rw [findSplit_through_word w (dquote :: (y2 ++ s)) (wordOk_all hok)
      (quotable_no_from_sfx hq) hhq (fromWs_nonword_head _ (by decide))]
    rw [findSplit]
    have hlq2 : ¬ (lookWsFrom (dquote :: (y2 ++ s)) = true) := by
      rw [look_head_false _ hqs]
      exact Bool.false_ne_true
    rw [if_neg hlq2]
    have hfy : fromWsAt (y2 ++ s) = false := by
      rw [← QR_fromWs (QR_append sub r s hr hrs)]
      exact hfxr
    have hbq2 : ¬ ((decide (dquote = ';') || fromWsAt (y2 ++ s)) = true) := by
      rw [hfy]
      intro hcon
      exact absurd hcon (by decide)
    rw [if_neg hbq2, hrec]
    rfl

/-- Inversion of a successful `matchSelect`. -/
theorem matchSelect_inv {prev : Option Char} {l sel d b : List Char}
    (h : matchSelect prev l = some (sel, d, b)) :
    boundaryOk prev = true ∧ prefixCI (("select").data) l = true ∧
    ∃ w a, l.drop 6 = w :: (a ++ b) ∧ isWs w = true ∧ d = w :: a ∧
      findSplit (a ++ b) = some (a, b) ∧ sel = l.take 6 := by
  rw [matchSelect] at h
  split at h
  case isTrue hb =>
    rw [Bool.and_eq_true] at hb
    split at h
    case h_2 => exact Option.noConfusion h
    case h_1 w tl hd =>
      split at h
      case isFalse => exact Option.noConfusion h
      case isTrue hw =>
        split at h
        case h_2 => exact Option.noConfusion h
        case h_1 p1 p2 hs =>
          simp only [Option.some_inj, Prod.mk.injEq] at h
          have hdec : tl = p1 ++ p2 := findSplit_decomp tl p1 p2 hs
          refine ⟨hb.1, hb.2, w, p1, ?_, hw, h.2.1.symm, ?_, h.1.symm⟩
          · rw [hd, hdec, h.2.2]
          · rw [← h.2.2, ← hdec]
            exact hs
  case isFalse hb => exact Option.noConfusion h

/-- When the SELECT spelling conditions hold but `matchSelect` fails, the
group-2 scan must have failed. -/
theorem matchSelect_none_body {prev : Option Char} {l : List Char} {w : Char} {tl : List Char}
    (hn : matchSelect prev l = none) (hb : boundaryOk prev = true)
    (hp : prefixCI (("select").data) l = true) (hd : l.drop 6 = w :: tl)
    (hw : isWs w = true) : findSplit tl = none := by
  rw [matchSelect] at hn
  rw [if_pos (by rw [Bool.and_eq_true]; exact ⟨hb, hp⟩)] at hn
  split at hn
  case h_2 hnil =>
    rw [hd] at hnil
    exact List.noConfusion hnil
  case h_1 w2 tl2 hd2 =>
    rw [hd] at hd2
    rw [List.cons.injEq] at hd2
    split at hn
    case isFalse hw2 =>
      exfalso
      rw [hd2.1] at hw
      exact hw2 hw
    case isTrue hw2 =>
      split at hn
      case h_1 p1 p2 hs => exact Option.noConfusion hn
      case h_2 hs =>
        rw [hd2.2]
        exact hs

/-- `matchSelect` failure is preserved by quote insertion. -/
theorem QR_matchSelect_none {g : Bool} {a b : List Char} (h : QR g a b) (prev : Option Char)
    (hn : matchSelect prev a = none) : matchSelect prev b = none := by
  cases hm : matchSelect prev b with
  | none => rfl
  | some trip =>
    exfalso
    obtain ⟨sel, rest⟩ := trip
    obtain ⟨d, bb⟩ := rest
    obtain ⟨hbnd, hpb, wb, ab, hdB, hwb, hdb, hfsB, hselB⟩ := matchSelect_inv hm
    have h6 : ((("select").data).length) = 6 := rfl
    have hcomboB : (prefixCI (("select").data) b && wsAfterPat (("select").data) b) = true := by
      rw [hpb, Bool.true_and]
      unfold wsAfterPat
      rw [h6, hdB]
      exact hwb
    have hcomboA : (prefixCI (("select").data) a && wsAfterPat (("select").data) a) = true := by
      rw [QR_pattern h (("select").data) (by decide) no_quotable_select_sfx]
      exact hcomboB
    rw [Bool.and_eq_true] at hcomboA
    have hpa := hcomboA.1
    have hwsa := hcomboA.2
    unfold wsAfterPat at hwsa
    rw [h6] at hwsa
    cases hda : a.drop 6 with
    | nil =>
      rw [hda] at hwsa
      exact absurd hwsa (by decide)
    | cons wa tla =>
      rw [hda] at hwsa
      have hwa : isWs wa = true := hwsa
      have hfsa : findSplit tla = none := matchSelect_none_body hn hbnd hpa hda hwa
      obtain ⟨g2, hpeel⟩ := QR_peel (("select").data) h (by decide) hpa hpb
      rw [h6, hda, hdB] at hpeel
      obtain ⟨b2, hbeq, hsub⟩ := QR_behead hpeel wa tla rfl (ws_not_word hwa)
      rw [List.cons.injEq] at hbeq
      have hnone : findSplit (ab ++ bb) = none := by
        rw [hbeq.2]
        exact QR_findSplit_none hsub hfsa
      rw [hnone] at hfsB
      exact Option.noConfusion hfsB

theorem processContent_ws_cons {w : Char} (hw : isWs w = true) (a1 : List Char) :
    processContent (w :: a1) = w :: renderS (processToks (some w) (tokenize a1)) := by
  unfold processContent
  rw [tokenize]
  rw [if_neg (by rw [ws_not_word hw]; exact Bool.false_ne_true)]
  rw [processToks, renderS]

theorem renderS_headNotWord {ts : List SToken} (hh : headNotWordTok ts = true)
    (hwf : wfToks ts = true) : headNotWordChar (renderS ts) = true := by
  cases ts with
  | nil => rfl
  | cons t rest =>
    cases t with
    | word w =>
      have hf : headNotWordTok (SToken.word w :: rest) = false := rfl
      rw [hf] at hh
      exact Bool.noConfusion hh
    | sym c =>
      rw [wfToks, Bool.and_eq_true] at hwf
      show (!isWord c) = true
      exact hwf.1

/-- The substitution output of one content region is related to the region by
`QR`. -/
theorem QR_processToks : ∀ (ts : List SToken) (q : Option Char) (g : Bool),
    wfToks ts = true → (g = true ∨ headNotWordTok ts = true) →
    QR g (renderS ts) (renderS (processToks q ts)) := by
  intro ts
  induction ts with
  | nil => intro q g _ _; exact QR.nil g
  | cons t rest ih =>
    intro q g hwf hg
    cases t with
    | sym c =>
      rw [wfToks, Bool.and_eq_true] at hwf
      show QR g (c :: renderS rest) (c :: renderS (processToks (some c) rest))
      exact QR.keep g c _ _ (by
        have hc : (!isWord c) = true := hwf.1
        exact ih (some c) (!isWord c) hwf.2 (Or.inl hc))
    | word w =>
      rw [wfToks, Bool.and_eq_true, Bool.and_eq_true] at hwf
      have hg2 : g = true := by
        cases hg with
        | inl h1 => exact h1
        | inr h1 =>
          have hf : headNotWordTok (SToken.word w :: rest) = false := rfl
          rw [hf] at h1
          exact Bool.noConfusion h1
      subst hg2
      by_cases hsq : shouldQuote w q rest = true
      · have hpt : processToks q (SToken.word w :: rest) =
            SToken.sym dquote :: SToken.word w :: SToken.sym dquote ::
              processToks (some dquote) rest := by
          rw [processToks, if_pos hsq]
        rw [hpt]
        show QR true (w ++ renderS rest)
          (dquote :: (w ++ dquote :: renderS (processToks (some dquote) rest)))
        have hq : quotableWord w = true := by
          rw [shouldQuote, Bool.and_eq_true, Bool.and_eq_true] at hsq
          exact hsq.1.1
        exact QR.wrap w (renderS rest) (renderS (processToks (some dquote) rest))
          hwf.1.1 hq (renderS_headNotWord hwf.1.2 hwf.2)
          (ih (some dquote) false hwf.2 (Or.inr hwf.1.2))
      · have hpt : processToks q (SToken.word w :: rest) =
            SToken.word w :: processToks (some (w.getLastD 'a')) rest := by
          rw [processToks, if_neg hsq]
        rw [hpt]
        show QR true (w ++ renderS rest)
          (w ++ renderS (processToks (some (w.getLastD 'a')) rest))
        exact QR_keeps_word w (wordOk_all hwf.1.1) (wordOk_ne_nil hwf.1.1)
          (ih (some (w.getLastD 'a')) false hwf.2 (Or.inr hwf.1.2)) true

theorem look_head_ws {l : List Char} (h : lookWsFrom l = true) : headIsWs l = true := by
  rw [look_bridge, Bool.and_eq_true] at h
  exact h.1

theorem look_head_not_word {l : List Char} (h : lookWsFrom l = true) :
    headNotWordChar l = true := by
  have h2 := look_head_ws h
  cases l with
  | nil => exact absurd h2 (by decide)
  | cons c t =>
    have hc : isWs c = true := h2
    show (!isWord c) = true
    rw [ws_not_word hc]
    rfl

/-- The fuel of `rewriteSqlF` is irrelevant once it covers the input length. -/
theorem rwF_fuel : ∀ (n f1 f2 : Nat) (prev : Option Char) (l : List Char),
    l.length ≤ n → l.length ≤ f1 → l.length ≤ f2 →
    rewriteSqlF f1 prev l = rewriteSqlF f2 prev l := by
  intro n
  induction n with
  | zero =>
    intro f1 f2 prev l h0 h1 h2
    cases l with
    | nil => cases f1 <;> cases f2 <;> rfl
    | cons c rest => exact absurd h0 (by simp)
  | succ m ih =>
    intro f1 f2 prev l hn h1 h2
    cases l with
    | nil => cases f1 <;> cases f2 <;> rfl
    | cons c rest =>
      have hlc : (c :: rest).length = rest.length + 1 := rfl
      cases f1 with
      | zero => exact absurd h1 (by simp)
      | succ a =>
        cases f2 with
        | zero => exact absurd h2 (by simp)
        | succ b =>
          rw [rewriteSqlF, rewriteSqlF]
          cases hm : matchSelect prev (c :: rest) with
          | none =>
            simp only [hm]
            rw [ih a b (some c) rest (by rw [hlc] at hn; omega)
              (by rw [hlc] at h1; omega) (by rw [hlc] at h2; omega)]
          | some trip =>
            obtain ⟨sel, d, bb⟩ := trip
            simp only [hm]
            have hblen := matchSelect_len hm
            rw [hlc] at hblen
            rw [ih a b (some (d.getLastD c)) bb (by rw [hlc] at hn; omega)
              (by rw [hlc] at h1; omega) (by rw [hlc] at h2; omega)]

/-- One-step unrolling of `rewriteSql`. -/
theorem rw_cons (prev : Option Char) (c : Char) (rest : List Char) :
    rewriteSql prev (c :: rest) = (match matchSelect prev (c :: rest) with
      | some (sel, d, b) => sel ++ processContent d ++ rewriteSql (some (d.getLastD c)) b
      | none => c :: rewriteSql (some c) rest) := by
  unfold rewriteSql
  rw [show (c :: rest).length = rest.length + 1 from rfl]
  rw [rewriteSqlF]
  cases hm : matchSelect prev (c :: rest) with
  | none => simp only [hm]
  | some trip =>
    obtain ⟨sel, d, bb⟩ := trip
    simp only [hm]
    have hblen := matchSelect_len hm
    simp only [List.length_cons] at hblen
    rw [rwF_fuel bb.length rest.length bb.length (some (d.getLastD c)) bb
      (Nat.le_refl _) (by omega) (Nat.le_refl _)]

/-- The output of the SELECT-clause rewrite is related to its input. -/
theorem QR_rewriteSql : ∀ (n : Nat) (l : List Char) (prev : Option Char), l.length ≤ n →
    ∀ g, QR g l (rewriteSql prev l) := by
  intro n
  induction n with
  | zero =>
    intro l prev h0 g
    cases l with
    | nil => exact QR.nil g
    | cons c rest => exact absurd h0 (by simp)
  | succ m ih =>
    intro l prev hn g
    cases l with
    | nil => exact QR.nil g
    | cons c rest =>
      rw [rw_cons]
      cases hm : matchSelect prev (c :: rest) with
      | none =>
        simp only [hm]
        refine QR.keep g c _ _ (ih rest (some c) ?_ (!isWord c))
        simp only [List.length_cons] at hn
        omega
      | some trip =>
        obtain ⟨sel, d, bb⟩ := trip
        simp only [hm]
        obtain ⟨hbnd, hpl, w, a1, hdl, hw, hd, hfs, hsel⟩ := matchSelect_inv hm
        have hldec : c :: rest = sel ++ (w :: (a1 ++ bb)) := by
          rw [hsel, ← hdl]
          exact (List.take_append_drop 6 (c :: rest)).symm
        rw [hldec, hd, processContent_ws_cons hw a1, List.append_assoc]
        apply QR_keeps_any sel _ _ ?_ g
        intro g2
        show QR g2 (w :: (a1 ++ bb))
          (w :: (renderS (processToks (some w) (tokenize a1)) ++
            rewriteSql (some ((w :: a1).getLastD c)) bb))
        apply QR.keep g2 w _ _ ?_
        have hflag : (!isWord w) = true := by
          rw [ws_not_word hw]
          rfl
        rw [hflag]
        have hQa : QR true a1 (renderS (processToks (some w) (tokenize a1))) := by
          have hx := QR_processToks (tokenize a1) (some w) true (wfToks_tokenize a1) (Or.inl rfl)
          rw [renderS_tokenize] at hx
          exact hx
        have hlook : lookWsFrom bb = true := findSplit_some_look _ _ _ hfs
        refine QR_append hQa bb _ (look_head_not_word hlook) ?_
        intro g3
        refine ih bb (some ((w :: a1).getLastD c)) ?_ g3
        have hblen := matchSelect_len hm
        simp only [List.length_cons] at hblen hn
        omega

theorem prefixCI_take_append : ∀ (pat l X : List Char), prefixCI pat l = true →
    prefixCI pat (l.take pat.length ++ X) = true := by
  intro pat
  induction pat with
  | nil => intro l X _; rfl
  | cons p ps ih =>
    intro l X h
    cases l with
    | nil =>
      simp only [prefixCI] at h
      exact Bool.noConfusion h
    | cons c t =>
      simp only [prefixCI, Bool.and_eq_true] at h
      show prefixCI (p :: ps) ((c :: t.take ps.length) ++ X) = true
      rw [List.cons_append]
      simp only [prefixCI, Bool.and_eq_true]
      exact ⟨h.1, ih t X h.2⟩

theorem matchSelect_ws_head (prev : Option Char) {c : Char} (t : List Char)
    (hc : isWs c = true) : matchSelect prev (c :: t) = none := by
  rw [matchSelect]
  have hp : prefixCI (("select").data) (c :: t) = false := by
    rw [select_data]
    simp only [prefixCI]
    rw [word_ne_lower_nonword (by decide) (ws_not_word hc)]
    exact Bool.false_and _
  have hcond : (boundaryOk prev && prefixCI (("select").data) (c :: t)) = false := by
    rw [hp]
    exact Bool.and_false _
  rw [if_neg (by rw [hcond]; exact Bool.false_ne_true)]

theorem rewriteSql_prev_irrel (p1 p2 : Option Char) (l : List Char) (h : headIsWs l = true) :
    rewriteSql p1 l = rewriteSql p2 l := by
  cases l with
  | nil => rfl
  | cons c t =>
    have hc : isWs c = true := h
    rw [rw_cons, rw_cons]
    simp only [matchSelect_ws_head p1 t hc, matchSelect_ws_head p2 t hc]

theorem rewriteSql_ws_head (prev : Option Char) {c : Char} (t : List Char)
    (hc : isWs c = true) : rewriteSql prev (c :: t) = c :: rewriteSql (some c) t := by
  rw [rw_cons]
  simp only [matchSelect_ws_head prev t hc]

/-- The SELECT-clause pattern matches at the head of the rewritten text with
the processed content as its group 2 and the rewritten remainder untouched. -/
theorem matchSelect_out {prev : Option Char} {c : Char} {rest sel d bb : List Char}
    (hm : matchSelect prev (c :: rest) = some (sel, d, bb))
    {R : List Char} (hR : ∀ g2, QR g2 bb R) :
    matchSelect prev (sel ++ processContent d ++ R) = some (sel, processContent d, R) := by
  obtain ⟨hbnd, hpl, w, a1, hdl, hw, hd, hfs, hsel⟩ := matchSelect_inv hm
  have h6 : ((("select").data).length) = 6 := rfl
  have hlen6 : sel.length = 6 := by
    rw [hsel, List.length_take]
    have hd6 : ((c :: rest).drop 6).length = (c :: rest).length - 6 := List.length_drop 6 (c :: rest)
    rw [hdl] at hd6
    simp only [List.length_cons] at hd6 ⊢
    omega
  rw [hd, processContent_ws_cons hw a1]
  set PT := renderS (processToks (some w) (tokenize a1)) with hPT
  rw [List.append_assoc]
  have hQa : QR true a1 PT := by
    have hx := QR_processToks (tokenize a1) (some w) true (wfToks_tokenize a1) (Or.inl rfl)
    rw [renderS_tokenize] at hx
    exact hx
  have hlookbb : lookWsFrom bb = true := findSplit_some_look _ _ _ hfs
  have hlookR : lookWsFrom R = true := by
    rw [← QR_look (hR true)]
    exact hlookbb
  have hseam : findSplit (PT ++ R) = some (PT, R) :=
    QR_findSplit_seam hQa bb R hfs (look_head_not_word hlookbb) hR hlookR
  rw [matchSelect]
  have hpre : prefixCI (("select").data) (sel ++ ((w :: PT) ++ R)) = true := by
    have hx := prefixCI_take_append (("select").data) (c :: rest) ((w :: PT) ++ R) hpl
    rw [h6, ← hsel] at hx
    exact hx
  rw [if_pos (by rw [Bool.and_eq_true]; exact ⟨hbnd, hpre⟩)]
  have hdrop : (sel ++ ((w :: PT) ++ R)).drop 6 = w :: (PT ++ R) := by
    rw [← hlen6, List.drop_left, List.cons_append]
  simp only [hdrop]
  rw [if_pos hw]
  simp only [hseam]
  have htake : (sel ++ ((w :: PT) ++ R)).take 6 = sel := by
    rw [← hlen6, List.take_left]
  rw [htake]

/-- Whole-string idempotence of the SELECT-clause rewrite scan. -/
theorem rewriteSql_idem_n : ∀ (n : Nat) (l : List Char) (prev : Option Char), l.length ≤ n →
    rewriteSql prev (rewriteSql prev l) = rewriteSql prev l := by
  intro n
  induction n with
  | zero =>
    intro l prev h0
    cases l with
    | nil => rfl
    | cons c rest => exact absurd h0 (by simp)
  | succ m ih =>
    intro l prev hn
    cases l with
    | nil => rfl
    | cons c rest =>
      have hrlen : rest.length ≤ m := by
        simp only [List.length_cons] at hn
        omega
      rw [rw_cons prev c rest]
      cases hm : matchSelect prev (c :: rest) with
      | none =>
        simp only [hm]
        have hrel : QR true (c :: rest) (c :: rewriteSql (some c) rest) :=
          QR.keep true c _ _ (QR_rewriteSql m rest (some c) hrlen (!isWord c))
        have hm2 : matchSelect prev (c :: rewriteSql (some c) rest) = none :=
          QR_matchSelect_none hrel prev hm
        rw [rw_cons]
        simp only [hm2]
        rw [ih rest (some c) hrlen]
      | some trip =>
        obtain ⟨sel, d, bb⟩ := trip
        simp only [hm]
        have hblen : bb.length ≤ m := by
          have hx := matchSelect_len hm
          simp only [List.length_cons] at hx
          omega
        have hR : ∀ g2, QR g2 bb (rewriteSql (some (d.getLastD c)) bb) :=
          fun g2 => QR_rewriteSql m bb (some (d.getLastD c)) hblen g2
        have hout := matchSelect_out hm hR
        obtain ⟨hbnd, hpl, w, a1, hdl, hw, hd, hfs, hsel⟩ := matchSelect_inv hm
        have hselc : sel = c :: rest.take 5 := by
          rw [hsel]
          rfl
        have hsh : sel ++ processContent d ++ rewriteSql (some (d.getLastD c)) bb =
            c :: (rest.take 5 ++ processContent d ++ rewriteSql (some (d.getLastD c)) bb) := by
          rw [hselc]
          simp [List.cons_append, List.append_assoc]
        rw [hsh] at hout ⊢
        rw [rw_cons]
        simp only [hout]
        rw [processContent_idem]
        have hlookbb : lookWsFrom bb = true := findSplit_some_look _ _ _ hfs
        have hidem : rewriteSql (some (d.getLastD c)) (rewriteSql (some (d.getLastD c)) bb) =
            rewriteSql (some (d.getLastD c)) bb := ih bb (some (d.getLastD c)) hblen
        cases hbb : bb with
        | nil =>
          rw [hbb] at hlookbb
          exact absurd hlookbb (by decide)
        | cons b0 bt =>
          rw [← hbb]
          have hb0 : isWs b0 = true := by
            rw [hbb] at hlookbb
            exact look_head_ws hlookbb
          have hRshape : rewriteSql (some (d.getLastD c)) bb =
              b0 :: rewriteSql (some b0) bt := by
            rw [hbb]
            exact rewriteSql_ws_head _ bt hb0
          have hprev2 : rewriteSql (some ((processContent d).getLastD c))
              (rewriteSql (some (d.getLastD c)) bb) =
              rewriteSql (some (d.getLastD c)) (rewriteSql (some (d.getLastD c)) bb) := by
            apply rewriteSql_prev_irrel
            rw [hRshape]
            exact hb0
          rw [hprev2, hidem, hsh]

/-- The projection rewrite pass of the reserved-word validation is idempotent
on every input string. -/
theorem rewriteSql_idem (sql : List Char) :
    rewriteSql none (rewriteSql none sql) = rewriteSql none sql :=
  rewriteSql_idem_n sql.length sql none (Nat.le_refl _)

end DataLake

theorem wrapTok_idem (t : Tok) : wrapTok (wrapTok t) = wrapTok t := by
  by_cases h : t.ttype = TType.stringSingle
  · by_cases h2 : (upperL (stripApos t.value)) ∈ SNOWFLAKE_RESERVED_WORDS
    · have e1 : wrapTok t = ⟨TType.stringSymbol, dquote :: (stripApos t.value ++ [dquote])⟩ := by
        unfold wrapTok
        rw [if_pos h, if_pos h2]
      rw [e1]
      unfold wrapTok
      rw [if_neg (by intro hc; exact TType.noConfusion hc)]
    · have e1 : wrapTok t = t := by
        unfold wrapTok
        rw [if_pos h, if_neg h2]
      rw [e1, e1]
  · have e1 : wrapTok t = t := by
      unfold wrapTok
      rw [if_neg h]
    rw [e1, e1]

/-- C8: the reserved-word rewriting is idempotent.  `wrap_reserved_words` is
idempotent at the sqlparse-token level: its per-token map is idempotent, since
a converted literal carries the `String.Symbol` ttype of a double-quoted chunk
and is never re-converted.  The projection rewrite pass of
`_validate_and_wrap_reserved_words` is idempotent on every input string:
a second scan finds the same SELECT clauses, already-quoted tokens are blocked
by the lookbehind, and the rewritten remainder is unchanged; the substitution
applied to a single clause content is also idempotent on its own. -/
theorem C8_rewrite_idempotent :
    (∀ ts : List Tok, wrapTokens (wrapTokens ts) = wrapTokens ts) ∧
    (∀ sql : List Char,
      DataLake.rewriteSql none (DataLake.rewriteSql none sql) =
        DataLake.rewriteSql none sql) ∧
    (∀ content : List Char,
      DataLake.processContent (DataLake.processContent content) =
        DataLake.processContent content) := by
  refine ⟨?_, DataLake.rewriteSql_idem, DataLake.processContent_idem⟩
  intro ts
  unfold wrapTokens
  rw [List.map_map]
  exact List.map_congr_left (fun t _ => wrapTok_idem t)

/-! ## Claim C9 -/

namespace DataLake

theorem nw_facts (c : Char) :
    number_to_word c ≠ [] ∧ (number_to_word c).all isTailIdent = true ∧
      isHeadIdent ((number_to_word c).headD '_') = true := by
  unfold number_to_word
  repeat' split
  all_goals exact ⟨by decide, by decide, by decide⟩

theorem translit_facts {c : Char} {w : List Char} (h : transliterate_chars c = some w) :
    w ≠ [] ∧ w.all isTailIdent = true ∧ isHeadIdent (w.headD '_') = true := by
  unfold transliterate_chars at h
  cases hf : transliterate_pairs.find? (fun p => p.1 = c) with
  | none => rw [hf] at h; exact Option.noConfusion h
  | some p =>
    rw [hf] at h
    simp only [Option.map_some', Option.some_inj] at h
    have hmem : p ∈ transliterate_pairs := List.mem_of_find?_eq_some hf
    have hall : transliterate_pairs.all
        (fun q => !q.2.isEmpty && q.2.all isTailIdent && isHeadIdent (q.2.headD '_')) = true := by
      decide
    have hp := List.all_eq_true.mp hall p hmem
    rw [Bool.and_eq_true, Bool.and_eq_true] at hp
    refine ⟨?_, ?_, ?_⟩
    · rw [← h]
      intro hcon
      rw [← List.isEmpty_iff] at hcon
      rw [hcon] at hp
      exact absurd hp.1.1 (by decide)
    · rw [← h]; exact hp.1.2
    · rw [← h]; exact hp.2

theorem alpha_tail {c : Char} (h : c.isAlpha = true) : isTailIdent c = true := by
  simp [isTailIdent, Char.isAlphanum, h]

theorem alpha_head {c : Char} (h : c.isAlpha = true) : isHeadIdent c = true := by
  simp [isHeadIdent, h]

theorem emit_all_tail (t : Char → List Char) (ht : ∀ c d, d ∈ t c → d.isAlpha = true)
    (i last : Nat) (c : Char) : (emitChar t i last c).all isTailIdent = true := by
  unfold emitChar
  by_cases h1 : c.isAlpha = true
  · rw [if_pos h1]
    simp [alpha_tail h1]
  · rw [if_neg h1]
    by_cases h2 : c.isDigit = true
    · rw [if_pos h2]
      by_cases h3 : i = 0
      · rw [if_pos h3, List.all_append, (nw_facts c).2.1]
        decide
      · rw [if_neg h3]
        simp [isTailIdent, Char.isAlphanum, h2]
    · rw [if_neg h2]
      by_cases h4 : (c = '_' || c = '-') = true
      · rw [if_pos h4]
        rw [Bool.or_eq_true, decide_eq_true_eq, decide_eq_true_eq] at h4
        rcases h4 with h4 | h4 <;> subst h4 <;> decide
      · rw [if_neg h4]
        cases htr : transliterate_chars c with
        | some wrd =>
          simp only [htr]
          have hpre : (if 0 < i then [('_' : Char)] else []).all isTailIdent = true := by
            split <;> decide
          have hsuf : (if i < last then [('_' : Char)] else []).all isTailIdent = true := by
            split <;> decide
          rw [List.all_append, List.all_append, hpre, hsuf, (translit_facts htr).2.1]
          decide
        | none =>
          simp only [htr]
          split
          · split
            · exact List.all_eq_true.mpr fun d hd => alpha_tail (ht c d hd)
            · decide
          · decide

theorem emit_ne_nil (t : Char → List Char) (i last : Nat) (c : Char) :
    emitChar t i last c ≠ [] := by
  unfold emitChar
  by_cases h1 : c.isAlpha = true
  · rw [if_pos h1]; simp
  · rw [if_neg h1]
    by_cases h2 : c.isDigit = true
    · rw [if_pos h2]
      by_cases h3 : i = 0
      · rw [if_pos h3]
        intro hcon
        rcases List.append_eq_nil.mp hcon with ⟨_, hb⟩
        exact List.noConfusion hb
      · rw [if_neg h3]; simp
    · rw [if_neg h2]
      by_cases h4 : (c = '_' || c = '-') = true
      · rw [if_pos h4]; simp
      · rw [if_neg h4]
        cases htr : transliterate_chars c with
        | some wrd =>
          simp only [htr]
          intro hcon
          rcases List.append_eq_nil.mp hcon with ⟨ha, hb⟩
          rcases List.append_eq_nil.mp ha with ⟨_, hw⟩
          exact (translit_facts htr).1 hw
        | none =>
          simp only [htr]
          split
          · split
            · rename_i h6
              rw [Bool.and_eq_true, Bool.and_eq_true] at h6
              intro hcon
              rw [← List.isEmpty_iff] at hcon
              rw [hcon] at h6
              exact absurd h6.1.1 (by decide)
            · simp
          · simp

theorem emit_head0 (t : Char → List Char) (ht : ∀ c d, d ∈ t c → d.isAlpha = true)
    (last : Nat) (c : Char) : isHeadIdent ((emitChar t 0 last c).headD '_') = true := by
  unfold emitChar
  by_cases h1 : c.isAlpha = true
  · rw [if_pos h1]
    simpa using alpha_head h1
  · rw [if_neg h1]
    by_cases h2 : c.isDigit = true
    · rw [if_pos h2, if_pos rfl]
      obtain ⟨hne, _, hhead⟩ := nw_facts c
      cases hnw : number_to_word c with
      | nil => exact absurd hnw hne
      | cons a as =>
        rw [hnw] at hhead
        rw [List.cons_append]
        simpa using hhead
    · rw [if_neg h2]
      by_cases h4 : (c = '_' || c = '-') = true
      · rw [if_pos h4]
        rw [Bool.or_eq_true, decide_eq_true_eq, decide_eq_true_eq] at h4
        rcases h4 with h4 | h4 <;> subst h4 <;> decide
      · rw [if_neg h4]
        cases htr : transliterate_chars c with
        | some wrd =>
          simp only [htr]
          rw [if_neg (by omega), List.nil_append]
          obtain ⟨hne, _, hhead⟩ := translit_facts htr
          cases hw : wrd with
          | nil => exact absurd hw hne
          | cons a as =>
            rw [hw] at hhead
            rw [List.cons_append]
            simpa using hhead
        | none =>
          simp only [htr]
          split
          · split
            · rename_i h6
              rw [Bool.and_eq_true, Bool.and_eq_true] at h6
              cases hc : t c with
              | nil =>
                rw [← List.isEmpty_iff] at hc
                rw [hc] at h6
                exact absurd h6.1.1 (by decide)
              | cons a as =>
                have ha : a.isAlpha = true := ht c a (by rw [hc]; exact List.mem_cons_self a as)
                simpa using alpha_head ha
            · decide
          · decide

theorem go_all_tail (t : Char → List Char) (ht : ∀ c d, d ∈ t c → d.isAlpha = true)
    (last : Nat) : ∀ (l : List Char) (i : Nat), (normalizeGo t i last l).all isTailIdent = true := by
  intro l
  induction l with
  | nil => intro i; rfl
  | cons c rest ih =>
    intro i
    rw [normalizeGo, List.all_append]
    rw [emit_all_tail t ht i last c, ih (i + 1)]
    rfl

end DataLake

def c9_foon : List Char := ("foo").data ++ [Char.ofNat 0x2BC] ++ [('n' : Char)]

def c9_nl : List Char := [('a' : Char), '\n']

/-- C9 counterexample: `_normalize_name` does not always produce a string
matching `^[A-Za-z_-][A-Za-z0-9_-]*$` — the empty input normalizes to the empty
string, which the pattern rejects; an identifier followed by a trailing
newline passes the `_is_name_normalized` pre-check (Python `$` matches before
a trailing newline) and is returned unchanged, which the pattern also rejects;
and a transliteration yielding an apostrophe (U+02BC in `fooʼn`) is replaced
by the underscore fallback, not dropped (the dropped form would be `foon`). -/
theorem C9_normalize_counterexample :
    DataLake.matchesIdent (DataLake._normalize_name []) = false ∧
    DataLake._normalize_name c9_nl = c9_nl ∧
    DataLake.matchesIdent c9_nl = false ∧
    DataLake._normalize_name c9_foon = ("foo_n").data ∧
    DataLake._normalize_name c9_foon ≠ ("foon").data := by
  exact ⟨by decide, by decide, by decide, by decide, by decide⟩

/-- C9 amended: an input accepted by the `_is_name_normalized` pre-check —
including an identifier followed by one trailing newline, which Python `$`
accepts — is returned unchanged.  For every other **non-empty** input, and
for any transliteration table whose outputs consist of ASCII letters, the
normalized name matches `^[A-Za-z_-][A-Za-z0-9_-]*$`; transliterations that
are exactly an apostrophe or a space (and failed transliterations) fall back
to an underscore — the character is substituted, not dropped. -/
theorem C9_amended_normalized_output :
    (∀ name : List Char, DataLake._is_name_normalized name = true →
      DataLake._normalize_name name = name) ∧
    (∀ (t : Char → List Char) (name : List Char), name ≠ [] →
      DataLake._is_name_normalized name = false →
      (∀ c d, d ∈ t c → d.isAlpha = true) →
      DataLake.matchesIdent (DataLake._normalize_name_core t name) = true) := by
  constructor
  · intro name h
    unfold DataLake._normalize_name DataLake._normalize_name_core
    rw [if_pos h]
  intro t name hne hpre ht
  unfold DataLake._normalize_name_core
  split
  · rename_i h
    rw [h] at hpre
    exact Bool.noConfusion hpre
  · cases name with
    | nil => exact absurd rfl hne
    | cons c rest =>
      rw [DataLake.normalizeGo]
      have h1 := DataLake.emit_ne_nil t 0 ((c :: rest).length - 1) c
      have h2 := DataLake.emit_all_tail t ht 0 ((c :: rest).length - 1) c
      have h3 := DataLake.emit_head0 t ht ((c :: rest).length - 1) c
      have h4 := DataLake.go_all_tail t ht ((c :: rest).length - 1) rest 1
      cases he : DataLake.emitChar t 0 ((c :: rest).length - 1) c with
      | nil => exact absurd he h1
      | cons a as =>
        rw [he] at h2 h3
        rw [List.cons_append, DataLake.matchesIdent]
        rw [List.all_append]
        rw [List.all_cons, Bool.and_eq_true] at h2
        simp only [List.headD_cons] at h3
        rw [h3, h2.2, h4]
        rfl

/-- Witness for C9 amended: a pre-check-accepted input with a trailing
newline is returned unchanged, and a concrete non-accepted input with a
letters-only table normalizes to an identifier. -/
theorem C9_amended_normalized_output_witness :
    DataLake._normalize_name c9_nl = c9_nl ∧
    DataLake.matchesIdent
      (DataLake._normalize_name_core (fun _ => [('x' : Char)]) (("a b").data)) = true :=
  ⟨C9_amended_normalized_output.1 c9_nl (by decide),
   C9_amended_normalized_output.2 (fun _ => [('x' : Char)]) (("a b").data) (by decide)
     (by decide)
     (fun c d hd => by
       rw [List.mem_singleton] at hd
       subst hd
       decide)⟩

end Panther
